import Mathlib

/-!
Verification development for the foreshadow column-scoped transformation
engine.  The Lean definitions below are a shallow embedding of the Python
source:

* `parallelizeMapping`    — `PreparerStep.parallelize_mapping`
  (src/foreshadow/core/base.py)
* `sliceCols`, `ppTransform`, `ppFit`, ... — `ParallelProcessor` and its
  helpers (src/foreshadow/parallelprocessor.py)
* `resolveST`, `smartFitST`, ... — `SmartTransformer`
  (src/foreshadow/smart/smart.py)
* `checkDf` — `check_df` (src/foreshadow/utils/validation.py)

Tables are modelled as ordered lists of labelled integer columns; pandas
MultiIndex column labels are modelled by a two-constructor label type.
Python exceptions are modelled with `Except`.
-/

namespace Foreshadow

/-- Column names are strings. -/
abbrev Col := String

/-! ## Scheduler: `PreparerStep.parallelize_mapping` -/

/-- One step of a column group: `(transformer, [cols])` in `get_mapping`
output.  The operator is identified by name (operators are opaque to the
scheduler). -/
structure StepEntry where
  op : String
  cols : List Col
  deriving DecidableEq

/-- A column mapping: `group-id -> ordered list of steps`.  A Python dict in
insertion order; theorems that depend on dict-key uniqueness carry a
`Nodup` hypothesis on the keys. -/
abbrev ColumnMapping := List (Nat × List StepEntry)

/-- Python exceptions that `parallelize_mapping` can raise:
`IndexError` (`cols_across_steps[0]` on an empty group, or
`list_of_steps[step_number]` past the end) and `KeyError`
(`column_mapping[0]` when no group has id 0). -/
inductive SchedErr
  | indexError
  | keyError
  deriving DecidableEq

/-- An entry of one fused super-step: `(group_number, transformer, cols)`. -/
abbrev FusedEntry := Nat × String × List Col

/-- An execution unit of the scheduler's plan: either one independent group
(`['group: %d', Pipeline([...]), cols]`) or the single fused step-parallel
block (`['grouped_pipeline', Pipeline(steps), all_cols]`). -/
inductive PlanUnit
  | indep (gid : Nat) (ops : List String) (cols : List Col)
  | fused (steps : List (List FusedEntry)) (allCols : List Col)
  deriving DecidableEq

/-- Group id of an independent unit; the fused block has none (its key is
the constant sentinel `'grouped_pipeline'`). -/
def PlanUnit.gid? : PlanUnit → Option Nat
  | .indep g _ _ => some g
  | .fused _ _ => none

/-- The name under which a unit is keyed in `final_mapping`: independent
groups get `'group: %d'`, the fused block the constant sentinel. -/
def PlanUnit.unitName : PlanUnit → String
  | .indep g _ _ => "group: " ++ toString g
  | .fused _ _ => "grouped_pipeline"

/-- Number of super-steps of the fused block (0 for independent units). -/
def PlanUnit.superStepCount : PlanUnit → Nat
  | .indep _ _ _ => 0
  | .fused ss _ => ss.length

/-- The check `all([x == cols_across_steps[0] for x in cols_across_steps])`:
does the group read the same column subset at every step?  (Vacuously true
for an empty group, exactly as Python's `all([])`.) -/
def isHomog : List StepEntry → Bool
  | [] => true
  | s :: rest => rest.all (fun t => t.cols == s.cols)

/-- First step's column subset (`cols_across_steps[0]`). -/
def headCols : List StepEntry → List Col
  | [] => []
  | s :: _ => s.cols

/-- Whether some group has an empty step list; Python raises `IndexError` at
`cols_across_steps[0]` for such a group. -/
def hasEmptyGroup (m : ColumnMapping) : Bool :=
  m.any (fun p => p.2.isEmpty)

/-- First pass of `parallelize_mapping`: every step-homogeneous group
becomes one independent unit `['group: %d', Pipeline(ops), cols]`, in
mapping iteration order. -/
def indepUnits (m : ColumnMapping) : List PlanUnit :=
  m.filterMap (fun p =>
    if isHomog p.2 then
      some (PlanUnit.indep p.1 (p.2.map StepEntry.op) (headCols p.2))
    else none)

/-- The groups left with `parallelized[group_number] = False`, in mapping
iteration order. -/
def hetGroups (m : ColumnMapping) : List (Nat × List StepEntry) :=
  m.filter (fun p => !(isHomog p.2))

/-- Python dict lookup `column_mapping[g]`. -/
def lookupGroup (m : ColumnMapping) (g : Nat) : Option (List StepEntry) :=
  (m.find? (fun p => p.1 == g)).map Prod.snd

/-- Effectful map that stops at the first error, mirroring a Python loop
that raises. -/
def mapE {ε α β : Type} (f : α → Except ε β) : List α → Except ε (List β)
  | [] => Except.ok []
  | a :: l => do
    let b ← f a
    let bs ← mapE f l
    Except.ok (b :: bs)

/-- Build super-step `i` of the fused block: for every non-parallelized
group (in mapping order) take its step `i` (`list_of_steps[step_number]`,
`IndexError` past the end) tagged with that step's own columns. -/
def buildFusedStep (hets : List (Nat × List StepEntry)) (i : Nat) :
    Except SchedErr (List FusedEntry) :=
  mapE (fun p =>
    match p.2.get? i with
    | none => Except.error SchedErr.indexError
    | some s => Except.ok (p.1, s.op, s.cols)) hets

/-- Model of accumulating column names into the Python set `all_cols` and
listing it.  Python's `list(set)` order is hash-dependent and unspecified;
we model first-occurrence order, and no theorem below depends on this
order. -/
def pyDedup (l : List Col) : List Col :=
  l.foldl (fun acc c => if c ∈ acc then acc else acc ++ [c]) []

/-- Shallow embedding of `PreparerStep.parallelize_mapping`
(src/foreshadow/core/base.py, lines 66-127).  Step-homogeneous groups each
become one independent unit; if any group is left over, a single fused
block is appended whose super-step count is `len(column_mapping[0])` — the
step count of the group with id 0 — and whose super-step `i` holds each
leftover group's step-`i` operator tagged with its own columns. -/
def parallelizeMapping (m : ColumnMapping) : Except SchedErr (List PlanUnit) :=
  if hasEmptyGroup m then Except.error SchedErr.indexError
  else if (hetGroups m).isEmpty then Except.ok (indepUnits m)
  else
    match lookupGroup m 0 with
    | none => Except.error SchedErr.keyError
    | some steps0 =>
      (mapE (buildFusedStep (hetGroups m)) (List.range steps0.length)).map
        (fun fusedSteps =>
          indepUnits m ++
            [PlanUnit.fused fusedSteps
              (pyDedup
                ((fusedSteps.map
                  (fun st => st.map (fun e => e.2.2))).flatten.flatten))])

/-- The maximum step count among the heterogeneous (non-parallelized)
groups — the super-step count the specification predicts for the fused
block.  This is a spec-side definition, used only to state claims; the
source uses `len(column_mapping[0])` instead. -/
def maxHetSteps (m : ColumnMapping) : Nat :=
  ((hetGroups m).map (fun p => p.2.length)).foldl max 0

/-- Characterization of the fused block's super-steps used to state C2:
super-step `i` holds, for every heterogeneous group in mapping order, its
position-`i` operator tagged with that position's own column subset. -/
def fusedStepsOf (m : ColumnMapping) (n : Nat) : List (List FusedEntry) :=
  (List.range n).map (fun i =>
    (hetGroups m).map (fun p =>
      (p.1, (p.2.getD i ⟨"", []⟩).op, (p.2.getD i ⟨"", []⟩).cols)))

/-- Concrete mapping for C2: group 0 is step-homogeneous with one step,
group 1 is heterogeneous with two steps. -/
def c2cexMapping : ColumnMapping :=
  [(0, [⟨"op0", ["x"]⟩]), (1, [⟨"a", ["y"]⟩, ⟨"b", ["y", "z"]⟩])]

/-- Concrete mapping for the C1 witness: the spec's own scenario
`{group 0: [(op1,[colX]), (op2,[colX])]}`. -/
def c1Mapping : ColumnMapping :=
  [(0, [⟨"op1", ["colX"]⟩, ⟨"op2", ["colX"]⟩])]

/-- Concrete mapping for the C2 witness: a single heterogeneous group that
also carries id 0, with two steps. -/
def c2wMapping : ColumnMapping :=
  [(0, [⟨"p", ["x"]⟩, ⟨"q", ["x", "x2"]⟩])]

/-! ## Tables with provenance labels

The `ParallelProcessor` works on pandas DataFrames whose column index is
either a flat index of names or a two-level MultiIndex
`(origin, new)`.  A label is one or the other; values are integers (the
engine never inspects values). -/

/-- A pandas column label: a plain name, or a two-level `(origin, new)`
provenance pair. -/
inductive Lbl
  | single (name : String)
  | pair (origin derived : String)
  deriving DecidableEq

/-- Whether the label is a two-level tuple (`type(origin[0]) == tuple`). -/
def Lbl.isPair : Lbl → Bool
  | .single _ => false
  | .pair _ _ => true

/-- The `origin` (top) level of the label; a flat name is its own origin. -/
def Lbl.originOf : Lbl → String
  | .single s => s
  | .pair o _ => o

/-- The `new` (bottom) level of the label; a flat name is its own name. -/
def Lbl.newOf : Lbl → String
  | .single s => s
  | .pair _ n => n

/-- A DataFrame: ordered labelled columns plus a row count (kept so an
empty frame still preserves the input's rows, like `X.drop(list(X))`). -/
structure DF where
  cols : List (Lbl × List Int)
  nrow : Nat
  deriving DecidableEq

/-- Python exceptions raised by the execution engine. -/
inductive EErr
  | keyError
  | indexError
  | valueError (msg : String)
  | typeError (msg : String)
  deriving DecidableEq

/-! ## Column slicing: `_slice_cols` -/

/-- Python `c.replace("$", "")`: strip every dollar sign. -/
def stripDollar (c : String) : String :=
  ⟨c.data.filter (fun ch => ch ≠ '$')⟩

/-- Python `c[0] == "$"`: the requested name carries the escape marker for
the derived-name level (first character of the name). -/
def startsDollar (c : String) : Bool :=
  match c.data with
  | [] => false
  | ch :: _ => ch == '$'

/-- The columns whose `origin` (or, with `useNew`, whose `new`) level
equals `c` — the selection of `X.xs(c, axis=1, level=level)`. -/
def xsMatches (X : DF) (c : String) (useNew : Bool) :
    List (Lbl × List Int) :=
  X.cols.filter (fun p => (if useNew then p.1.newOf else p.1.originOf) == c)

/-- Model of `X.xs(c, axis=1, level=level, drop_level=False)` followed by
an optional `droplevel()` (which drops the top `origin` level): select
every column whose given level equals `c`, `KeyError` when none match. -/
def xsSlice (X : DF) (c : String) (useNew : Bool) (dropLevel : Bool) :
    Except EErr DF :=
  if (xsMatches X c useNew).isEmpty then Except.error EErr.keyError
  else
    Except.ok ⟨if dropLevel then
        (xsMatches X c useNew).map (fun p => (Lbl.single p.1.newOf, p.2))
      else xsMatches X c useNew, X.nrow⟩

/-- Single-level `X[c]` lookup: the column labelled with the plain name
`c`, `KeyError` when absent. -/
def selectByName (X : DF) (c : Col) : Except EErr (Lbl × List Int) :=
  match X.cols.find? (fun p => p.1 == Lbl.single c) with
  | some p => Except.ok p
  | none => Except.error EErr.keyError

/-- The membership filter of the `_slice_cols` comprehension: a requested
name is kept when it appears at the `origin` level or (dollar-stripped) at
the `new` level. -/
def keepCols (X : DF) (cols : List Col) : List Col :=
  cols.filter (fun c =>
    (X.cols.map (fun p => p.1.originOf)).contains c ||
    (X.cols.map (fun p => p.1.newOf)).contains (stripDollar c))

/-- One kept name's slice: `c[0]` on an empty name raises `IndexError`; a
`$`-prefixed name is looked up at the `new` level, any other at the
`origin` level. -/
def multiSliceOne (X : DF) (dropLevel : Bool) (c : Col) : Except EErr DF :=
  if c.data.isEmpty then Except.error EErr.indexError
  else if startsDollar c then xsSlice X (stripDollar c) true dropLevel
  else xsSlice X c false dropLevel

/-- The two-level branch of `_slice_cols`: slice each kept name at the
level it addresses and concatenate; `pd.concat([])` on an empty selection
raises `ValueError`. -/
def multiSlice (X : DF) (cols : List Col) (dropLevel : Bool) :
    Except EErr DF := do
  let parts ← mapE (multiSliceOne X dropLevel) (keepCols X cols)
  if parts.isEmpty then
    Except.error (EErr.valueError "No objects to concatenate")
  else Except.ok ⟨(parts.map DF.cols).flatten, X.nrow⟩

/-- Shallow embedding of `_slice_cols`
(src/foreshadow/parallelprocessor.py, lines 524-572). -/
def sliceCols (X : DF) (cols : List Col) (dropLevel : Bool) :
    Except EErr DF :=
  match X.cols with
  | [] => Except.ok X
  | p :: _ =>
    if cols.isEmpty then Except.ok ⟨[], X.nrow⟩
    else if p.1.isPair then multiSlice X cols dropLevel
    else (mapE (selectByName X) cols).map (fun sel => ⟨sel, X.nrow⟩)

/-! ## The execution engine: `ParallelProcessor` -/

/-- An operator as the engine sees it: an opaque id (its `repr`, used in
error messages), the duck-typed capability surface checked by
`_validate_transformers`, and the transform implementation.  Operators are
external collaborators; the engine never looks further. -/
structure Trans where
  id : String
  hasFit : Bool
  hasFitTransform : Bool
  hasTransform : Bool
  tf : DF → DF

/-- One element of `transformer_list`:
`(name, transformer-or-None, [cols])`. -/
structure TEntry where
  name : String
  trans : Option Trans
  cols : List Col

/-- The `ParallelProcessor` configuration. -/
structure PP where
  transformer_list : List TEntry
  n_jobs : Int
  transformer_weights : List (String × Int)
  collapse_index : Bool

/-- Weight lookup `(self.transformer_weights or {}).get(name)`. -/
def weightOf (pp : PP) (name : String) : Option Int :=
  (pp.transformer_weights.find? (fun q => q.1 == name)).map Prod.snd

/-- One item yielded by `ParallelProcessor._iter`. -/
structure IterEntry where
  name : String
  trans : Trans
  cols : List Col
  weight : Option Int

/-- Shallow embedding of `ParallelProcessor._iter`: the non-null entries,
in list order, with their weights; `None` handles are skipped. -/
def iterEntries (pp : PP) : List IterEntry :=
  pp.transformer_list.filterMap (fun e =>
    e.trans.map (fun t => ⟨e.name, t, e.cols, weightOf pp e.name⟩))

/-- The names whose transformers get work dispatched to the worker pool —
exactly the `_iter` output. -/
def dispatchedNames (pp : PP) : List String :=
  (iterEntries pp).map IterEntry.name

/-- Lexicographic comparison of code-point sequences — how Python
compares strings in `sorted`. -/
def natListLt : List Nat → List Nat → Bool
  | _, [] => false
  | [], _ :: _ => true
  | c :: cs, d :: ds =>
    if c < d then true
    else if d < c then false
    else natListLt cs ds

/-- The code points of a string. -/
def codes (s : String) : List Nat := s.data.map Char.toNat

/-- Python string `<`: lexicographic on code points. -/
def pyStrLt (a b : String) : Bool := natListLt (codes a) (codes b)

/-- Python `sorted(cols)[0]`: the lexicographically smallest element
(`IndexError`, modelled as `none`, on an empty list). -/
def pyMinStr : List String → Option String
  | [] => none
  | c :: cs => some (cs.foldl (fun a b => if pyStrLt b a then b else a) c)

/-- The weight multiplication step of sklearn's `_transform_one` /
`_fit_transform_one`: `res * weight` when a weight is set. -/
def applyWeight (w : Option Int) (res : DF) : DF :=
  match w with
  | none => res
  | some k => ⟨res.cols.map (fun p => (p.1, p.2.map (fun v => v * k))), res.nrow⟩

/-- The provenance tagging
`res.columns = [[colname] * len(list(res)), list(res)]`: every output
column is relabelled `(colname, its own name)`. -/
def tagCols (colname : String) (res : DF) : DF :=
  ⟨res.cols.map (fun p => (Lbl.pair colname p.1.newOf, p.2)), res.nrow⟩

/-- Shallow embedding of `_pandas_transform_one`
(src/foreshadow/parallelprocessor.py, lines 596-618): compute
`sorted(cols)[0]`, run the transformer, multiply by the weight, and tag
with the provenance MultiIndex unless the index is to be collapsed. -/
def pandasTransformOne (t : Trans) (w : Option Int) (Xs : DF)
    (cols : List Col) (collapse : Bool) : Except EErr DF :=
  match pyMinStr cols with
  | none => Except.error EErr.indexError
  | some colname =>
    let res := applyWeight w (t.tf Xs)
    Except.ok (if collapse then res else tagCols colname res)

/-- Shallow embedding of `ParallelProcessor._get_other_cols`: all column
labels of `X` not produced by slicing out every transformer's columns.
Python materializes `list(full_set - partial_set)` whose order is
hash-dependent and unspecified; we keep the `X` order, and no theorem
depends on this order. -/
def getOtherCols (pp : PP) (X : DF) : Except EErr (List Lbl) :=
  (sliceCols X ((iterEntries pp).map IterEntry.cols).flatten false).map
    (fun part =>
      (X.cols.map Prod.fst).filter
        (fun l => !((part.cols.map Prod.fst).contains l)))

/-- The passthrough-index promotion
`Xo.columns = [list(Xo), list(Xo)]`, applied when the first label is not a
tuple: each flat label becomes the pair `(name, name)`. -/
def promoteXo (Xo : DF) : DF :=
  match Xo.cols with
  | [] => Xo
  | p :: _ =>
    if p.1.isPair then Xo
    else ⟨Xo.cols.map (fun q => (Lbl.pair q.1.newOf q.1.newOf, q.2)), Xo.nrow⟩

/-- The collapse step `Xs.columns = Xs.columns.droplevel()` guarded by
`except AttributeError: pass`: pandas columns form a MultiIndex (on which
`droplevel` succeeds) exactly when every label is two-level; otherwise the
index is flat and the `AttributeError` is swallowed, leaving labels
unchanged. -/
def collapseColumns (R : DF) : DF :=
  if R.cols.all (fun p => p.1.isPair) then
    ⟨R.cols.map (fun p => (Lbl.single p.1.newOf, p.2)), R.nrow⟩
  else R

/-- The passthrough frame `Xo = X[self._get_other_cols(X)]`. -/
def passthroughFrame (X : DF) (other : List Lbl) : DF :=
  ⟨X.cols.filter (fun p => other.contains p.1), X.nrow⟩

/-- Append the promoted passthrough frame when it has columns
(`if len(list(Xo)) > 0: ...; Xs += (Xo,)`). -/
def withPassthrough (X : DF) (other : List Lbl) (Xs : List DF) : List DF :=
  if (passthroughFrame X other).cols.isEmpty then Xs
  else Xs ++ [promoteXo (passthroughFrame X other)]

/-- The final `pd.concat(Xs, axis=1)` plus the optional collapse step. -/
def concatCollapse (collapse : Bool) (nrow : Nat) (parts : List DF) : DF :=
  let R : DF := ⟨(parts.map DF.cols).flatten, nrow⟩
  if collapse then collapseColumns R else R

/-- The tail of `transform`: `if not Xs: return X[[]]` else concatenate
and optionally collapse. -/
def assembleParts (collapse : Bool) (nrow : Nat) (parts : List DF) :
    Except EErr DF :=
  if parts.isEmpty then Except.ok ⟨[], nrow⟩
  else Except.ok (concatCollapse collapse nrow parts)

/-- The per-unit body dispatched by `transform` (and, with the identical
frame path, by `fit_transform`): slice, then transform-and-tag. -/
def transformUnit (pp : PP) (X : DF) (q : IterEntry) : Except EErr DF := do
  let sl ← sliceCols X q.cols true
  pandasTransformOne q.trans q.weight sl q.cols pp.collapse_index

/-- Shallow embedding of `ParallelProcessor.transform`
(src/foreshadow/parallelprocessor.py, lines 307-348). -/
def ppTransform (pp : PP) (X : DF) : Except EErr DF := do
  let Xs ← mapE (transformUnit pp X) (iterEntries pp)
  let other ← getOtherCols pp X
  assembleParts pp.collapse_index X.nrow (withPassthrough X other Xs)

/-! ## Validation and fit -/

/-- Operator capability check of `_validate_transformers`:
`(fit or fit_transform) and transform`. -/
def capable (t : Trans) : Bool :=
  (t.hasFit || t.hasFitTransform) && t.hasTransform

/-- Parameter names that collide with the estimator's own params in
sklearn's `_validate_names`. -/
def reservedParamNames : List String :=
  ["transformer_list", "n_jobs", "transformer_weights", "collapse_index",
   "default_transformer_list"]

/-- Python `"__" in name`: two consecutive underscores somewhere in the
character sequence. -/
def listHasDunder : List Char → Bool
  | c1 :: c2 :: rest =>
    if c1 = '_' ∧ c2 = '_' then true else listHasDunder (c2 :: rest)
  | _ => false

/-- sklearn's `_validate_names`: names must be unique, must not shadow a
constructor parameter, and must not contain `__`. -/
def validateNames (names : List String) : Except EErr Unit :=
  if names.Nodup then
    if names.any (fun n => reservedParamNames.contains n) then
      Except.error (EErr.valueError "Estimator names conflict")
    else if names.any (fun n => listHasDunder n.data) then
      Except.error (EErr.valueError "Estimator names must not contain __")
    else Except.ok ()
  else Except.error (EErr.valueError "Names provided are not unique")

/-- The first non-null transformer failing the capability check, in list
order (`None` entries are passed over with `continue`). -/
def firstIncapable (l : List TEntry) : Option Trans :=
  (l.filterMap TEntry.trans).find? (fun t => !capable t)

/-- Shallow embedding of `ParallelProcessor._validate_transformers`
(src/foreshadow/parallelprocessor.py, lines 211-233): unzipping an empty
list raises, names are validated, then the first incapable non-null
transformer raises `TypeError` naming it. -/
def validateTransformers (pp : PP) : Except EErr Unit :=
  if pp.transformer_list.isEmpty then
    Except.error (EErr.valueError "not enough values to unpack")
  else
    match validateNames (pp.transformer_list.map TEntry.name) with
    | Except.error e => Except.error e
    | Except.ok _ =>
      match firstIncapable pp.transformer_list with
      | some t => Except.error (EErr.typeError t.id)
      | none => Except.ok ()

/-- Fitting an operator returns the fitted operator; learned state is not
observable at the engine's level, so the operator is returned as-is. -/
def fitOne (t : Trans) (_Y : DF) : Trans := t

/-- Zip the fitted transformers back into the list
(`_update_transformer_list`): `None` slots stay `None`, the others take
the next fitted transformer in order. -/
def updateTransformerList : List TEntry → List Trans → List TEntry
  | [], _ => []
  | e :: rest, fs =>
    match e.trans, fs with
    | none, _ => e :: updateTransformerList rest fs
    | some _, f :: fs2 =>
      { e with trans := some f } :: updateTransformerList rest fs2
    | some _, [] => e :: updateTransformerList rest []

/-- Shallow embedding of `ParallelProcessor.fit`
(src/foreshadow/parallelprocessor.py, lines 276-305): validate, then slice
and fit each non-null unit, then zip the fitted operators back. -/
def ppFit (pp : PP) (X : DF) : Except EErr PP := do
  validateTransformers pp
  let fitted ← mapE (fun q =>
      (sliceCols X q.cols true).map (fun Y => fitOne q.trans Y))
    (iterEntries pp)
  Except.ok { pp with
    transformer_list := updateTransformerList pp.transformer_list fitted }

/-- Shallow embedding of the frame-producing path of
`ParallelProcessor.fit_transform`
(src/foreshadow/parallelprocessor.py, lines 394-464): validate, run the
fused fit+transform (same provenance tagging as `_pandas_transform_one`,
via `_pandas_fit_transform_one`), return the empty frame when every
transformer is `None` (before passthrough columns are even considered),
otherwise append the promoted passthrough columns, concatenate and
optionally collapse.  The column-sharer merge this method additionally
performs touches only operator state, not the frame, and is modelled
separately by `storeTrace` / `storeResult` below. -/
def ppFitTransform (pp : PP) (X : DF) : Except EErr DF := do
  validateTransformers pp
  let res ← mapE (transformUnit pp X) (iterEntries pp)
  if res.isEmpty then Except.ok ⟨[], X.nrow⟩
  else do
    let other ← getOtherCols pp X
    Except.ok (concatCollapse pp.collapse_index X.nrow
      (withPassthrough X other res))

/-! ## The resolvable operator: `SmartTransformer`

Concrete transformers are opaque; they are identified by a string id.  The
wrapper's observable state is the bound transformer, the two resolution
flags, and — as instrumentation for the theorems — how many times the
user-supplied selection function `pick_transformer` has been invoked. -/

/-- A value assigned to the `transformer` property: a concrete transformer
instance, a string naming a transformer class, a serialized dict carrying
a `class_name`, or `None`. -/
inductive TVal
  | inst (id : String)
  | strRef (id : String)
  | dictRef (id : String)
  | null
  deriving DecidableEq

/-- Observable `SmartTransformer` state. -/
structure SmartST where
  transformer : Option String
  should_resolve : Bool
  force_reresolve : Bool
  pickCount : Nat
  deriving DecidableEq

/-- The `transformer` property setter
(src/foreshadow/smart/smart.py, lines 94-136): a string or serialized dict
is instantiated and `unset_resolve()` is called (clearing both flags); a
plain instance or `None` is stored with the resolution flags left
untouched.  The type-validation checks reject only invalid objects and are
not modelled. -/
def setTransformer (st : SmartST) (v : TVal) : SmartST :=
  match v with
  | TVal.strRef s =>
    { st with transformer := some s, should_resolve := false,
              force_reresolve := false }
  | TVal.dictRef s =>
    { st with transformer := some s, should_resolve := false,
              force_reresolve := false }
  | TVal.inst s => { st with transformer := some s }
  | TVal.null => { st with transformer := none }

/-- The `SmartTransformer.__init__` path relevant to resolution: the flags
are stored, then `self.transformer = transformer` runs the setter last. -/
def smartInit (v : TVal) (should_resolve : Bool := true)
    (force_reresolve : Bool := false) : SmartST :=
  setTransformer ⟨none, should_resolve, force_reresolve, 0⟩ v

/-- Shallow embedding of `SmartTransformer.resolve`
(src/foreshadow/smart/smart.py, lines 215-240): `force_reresolve` re-arms
`should_resolve`; if `should_resolve` is set the selection function is
invoked and its result assigned (a plain instance, so the setter leaves
the flags alone); finally `should_resolve` is cleared. -/
def resolveST (st : SmartST) (pick : String) : SmartST :=
  let st1 := if st.force_reresolve then { st with should_resolve := true }
    else st
  let st2 := if st1.should_resolve then
      { st1 with transformer := some pick, pickCount := st1.pickCount + 1 }
    else st1
  { st2 with should_resolve := false }

/-! ## Input normalization: `check_df` -/

/-- The Python values reaching `check_df`. -/
inductive PyObj
  | none
  | df (d : DF)
  | series (name : String) (vals : List Int)
  | ndarray (rows : List (List Int))
  | pylist (vals : List Int)
  | pytuple (vals : List Int)
  | other (desc : String)
  deriving DecidableEq

/-- Errors raised by `check_df`. -/
inductive CheckErr
  | invalidType
  | notSingleColumn
  deriving DecidableEq

/-- Model of `pd.DataFrame(array)` for a 2-D array: positional integer
column names (rendered as strings), column `j` holding row-element `j`. -/
def dfOfRows (rows : List (List Int)) : DF :=
  ⟨(List.range ((rows.head?.map List.length).getD 0)).map (fun j =>
    (Lbl.single (toString j), rows.map (fun r => r.getD j 0))), rows.length⟩

/-- Occurrence count bookkeeping of pandas'
`ParserBase._maybe_dedup_names`. -/
def getCount (counts : List (String × Nat)) (k : String) : Nat :=
  ((counts.find? (fun q => q.1 == k)).map Prod.snd).getD 0

/-- Update (or insert) a count. -/
def setCount (counts : List (String × Nat)) (k : String) (v : Nat) :
    List (String × Nat) :=
  if (counts.find? (fun q => q.1 == k)).isSome then
    counts.map (fun q => if q.1 == k then (q.1, v) else q)
  else counts ++ [(k, v)]

/-- One name's pass through `_maybe_dedup_names`' while loop: while the
current name has a positive count, bump that count and retry with
`name.count` appended.  Visited keys have strictly growing lengths, so the
loop visits each existing key at most once; the fuel
`counts.length + 1` therefore never runs out on reachable inputs. -/
def dedupOne : Nat → List (String × Nat) → String →
    String × List (String × Nat)
  | 0, counts, col => (col, setCount counts col (getCount counts col + 1))
  | fuel + 1, counts, col =>
    let cur := getCount counts col
    if cur = 0 then (col, setCount counts col 1)
    else dedupOne fuel (setCount counts col (cur + 1))
      (col ++ "." ++ toString cur)

/-- pandas `ParserBase._maybe_dedup_names`: rename later duplicate
occurrences `name.1`, `name.2`, ... -/
def maybeDedupNames (names : List String) : List String :=
  (names.foldl (fun acc col =>
    let r := dedupOne (acc.2.length + 1) acc.2 col
    (acc.1 ++ [r.1], r.2)) (([] : List String), ([] : List (String × Nat)))).1

/-- Apply the duplicate renaming to a frame's (flat) column names, keeping
values untouched. -/
def dedupDf (d : DF) : DF :=
  ⟨(d.cols.zip (maybeDedupNames (d.cols.map (fun p => p.1.newOf)))).map
    (fun q => (Lbl.single q.2, q.1.2)), d.nrow⟩

/-- The duplicate-name repair of `check_df`'s DataFrame branch: unique
names pass through, duplicates are renamed with a warning. -/
def checkDfFrame (d : DF) : DF × Bool :=
  if (d.cols.map (fun p => p.1.newOf)).Nodup then (d, false)
  else (dedupDf d, true)

/-- The trailing `single_column` arity check of `check_df`. -/
def withSingleColumnCheck (singleColumn : Bool) (pr : DF × Bool) :
    Except CheckErr (Option DF × Bool) :=
  if singleColumn ∧ pr.1.cols.length ≠ 1 then
    Except.error CheckErr.notSingleColumn
  else Except.ok (some pr.1, pr.2)

/-- Shallow embedding of `check_df`
(src/foreshadow/utils/validation.py, lines 14-63).  Returns the converted
frame (or `none` for an ignored `None` label input) together with whether
the duplicate-name warning fired. -/
def checkDf (input : PyObj) (ignoreNone : Bool) (singleColumn : Bool) :
    Except CheckErr (Option DF × Bool) :=
  match input with
  | PyObj.none =>
    if ignoreNone then Except.ok (none, false)
    else Except.error CheckErr.invalidType
  | PyObj.df d => withSingleColumnCheck singleColumn (checkDfFrame d)
  | PyObj.series name vals =>
    withSingleColumnCheck singleColumn
      (⟨[(Lbl.single name, vals)], vals.length⟩, false)
  | PyObj.ndarray rows =>
    withSingleColumnCheck singleColumn (dfOfRows rows, false)
  | PyObj.pylist vals =>
    withSingleColumnCheck singleColumn
      (⟨[(Lbl.single "0", vals)], vals.length⟩, false)
  | PyObj.pytuple vals =>
    withSingleColumnCheck singleColumn
      (⟨[(Lbl.single "0", vals)], vals.length⟩, false)
  | PyObj.other _ => Except.error CheckErr.invalidType

/-- Shallow embedding of `SmartTransformer.transform`: normalize the
argument through `check_df`, then resolve; the concrete transformer's
output is opaque, so the model returns the resolved state together with
the normalized frame handed to it. -/
def smartTransformST (st : SmartST) (X : PyObj) (pick : String) :
    Except CheckErr (SmartST × Option DF) := do
  let rX ← checkDf X false false
  Except.ok (resolveST st pick, rX.1)

/-- Shallow embedding of `SmartTransformer.fit`
(src/foreshadow/smart/smart.py, lines 256-279): `X = check_df(X)`,
`y = check_df(y, ignore_none=True)`, then resolve and fit the bound
transformer (opaque); returns the resolved state and both normalized
arguments. -/
def smartFitST (st : SmartST) (X y : PyObj) (pick : String) :
    Except CheckErr (SmartST × Option DF × Option DF) := do
  let rX ← checkDf X false false
  let rY ← checkDf y true false
  Except.ok (resolveST st pick, rX.1, rY.1)

/-- Shallow embedding of `SmartTransformer.inverse_transform`: normalize,
resolve, and delegate (opaque). -/
def smartInverseST (st : SmartST) (X : PyObj) (pick : String) :
    Except CheckErr (SmartST × Option DF) := do
  let rX ← checkDf X false false
  Except.ok (resolveST st pick, rX.1)

/-! ## The shared metadata store merge of `fit_transform`

`ColumnSharer` is a mapping from combined keys to optional values.  The
frame path of `fit_transform` is modelled by `ppFitTransform` above; the
store side effects of
`_update_original_column_sharer` / `_update_transformers_with_updated_column_sharer`
(src/foreshadow/parallelprocessor.py, lines 361-439) are modelled here,
together with an event trace recording the order of merge and broadcast
actions. -/

/-- A `ColumnSharer`: combined keys mapped to optional values. -/
abbrev CS := List (String × Option Int)

/-- `column_sharer[combined_key] = value`. -/
def csSet (cs : CS) (k : String) (v : Option Int) : CS :=
  if (cs.find? (fun q => q.1 == k)).isSome then
    cs.map (fun q => if q.1 == k then (q.1, v) else q)
  else cs ++ [(k, v)]

/-- One key's merge step: only a present (non-`None`) value is copied. -/
def csMergeStep (acc : CS) (kv : String × Option Int) : CS :=
  match kv.2 with
  | some v => csSet acc kv.1 (some v)
  | none => acc

/-- Shallow embedding of
`ParallelProcessor._update_original_column_sharer_with_another`
(src/foreshadow/parallelprocessor.py, lines 377-392): copy every key of
the modified store whose value is not `None` into the canonical store. -/
def csMergeFrom (canonical modified : CS) : CS :=
  modified.foldl csMergeStep canonical

/-- A fitted execution unit as the store merge sees it: the
`column_sharer` attribute of each step of its pipeline.  The merge reads
only `steps[0]`; within one worker all steps alias one store, so the
first step carries the unit's writes. -/
structure FittedUnit where
  steps : List CS
  deriving DecidableEq

/-- Observable store actions of `fit_transform`, for stating ordering
properties. -/
inductive StoreEvent
  | merge (unitIdx : Nat)
  | broadcast
  deriving DecidableEq

/-- The guard
`update_column_sharer = (self.n_jobs > 1 or self.n_jobs == -1) and (column_sharer is not None)`:
under the sequential substrate (`n_jobs == 1`) or without a store, the
merge step is skipped. -/
def updateCondition (njobs : Int) (canonical : Option CS) : Bool :=
  (decide (1 < njobs) || njobs == -1) && canonical.isSome

/-- One unit's contribution to `_update_original_column_sharer`: merge its
first step's store into the accumulator. -/
def mergeAllStep (acc : CS) (u : FittedUnit) : CS :=
  csMergeFrom acc (u.steps.headD [])

/-- `_update_original_column_sharer`: fold every unit's first-step store
into the canonical store, in unit order. -/
def mergeAll (canonical : CS) (units : List FittedUnit) : CS :=
  units.foldl mergeAllStep canonical

/-- The order of store actions `fit_transform` performs after the parallel
region returns: every unit's writes are merged (in unit order), and only
then is the canonical store broadcast back to the units' steps; nothing
happens when the update condition is off. -/
def storeTrace (njobs : Int) (canonical : Option CS)
    (units : List FittedUnit) : List StoreEvent :=
  if updateCondition njobs canonical then
    ((List.range units.length).map StoreEvent.merge) ++ [StoreEvent.broadcast]
  else []

/-- The store-present case of the update: after merging all units,
`_update_transformers_with_updated_column_sharer` points every step of
every unit at the canonical store. -/
def storeResultSome (njobs : Int) (cs : CS) (units : List FittedUnit) :
    Option CS × List FittedUnit :=
  if updateCondition njobs (some cs) then
    (some (mergeAll cs units),
      units.map (fun u => ⟨u.steps.map (fun _ => mergeAll cs units)⟩))
  else (some cs, units)

/-- The resulting canonical store and unit stores of `fit_transform`'s
store handling. -/
def storeResult (njobs : Int) (canonical : Option CS)
    (units : List FittedUnit) : Option CS × List FittedUnit :=
  match canonical with
  | some cs => storeResultSome njobs cs units
  | none => (none, units)

/-- Scans an event trace: is there a broadcast strictly between the first
and the second merge event?  (The claim's per-unit re-broadcast rule
requires one.)  The flag records whether the first merge has been seen. -/
def broadcastBeforeSecondMerge : List StoreEvent → Bool → Bool
  | [], _ => false
  | StoreEvent.merge _ :: rest, false => broadcastBeforeSecondMerge rest true
  | StoreEvent.merge _ :: _, true => false
  | StoreEvent.broadcast :: rest, false => broadcastBeforeSecondMerge rest false
  | StoreEvent.broadcast :: _, true => true

/-! ## Concrete inputs for witnesses and counterexamples -/

/-- Map a sliced column through the optional `droplevel()` of
`_slice_cols.get`, which drops the top `origin` level. -/
def dropLvl (d : Bool) (p : Lbl × List Int) : Lbl × List Int :=
  if d then (Lbl.single p.1.newOf, p.2) else p

/-- The values of the column with the given flat name (used to state the
single-level slicing result). -/
def valueAt (X : DF) (a : String) : List Int :=
  ((X.cols.find? (fun p => p.1 == Lbl.single a)).map Prod.snd).getD []

def c3t : Trans := ⟨"c3t", true, true, true,
  fun d => ⟨[(Lbl.single "out", [9])], d.nrow⟩⟩

def c3pp : PP := ⟨[⟨"g", some c3t, ["colY", "colX"]⟩], -1, [], false⟩

def c3X : DF :=
  ⟨[(Lbl.single "colY", [1, 2]), (Lbl.single "colX", [3, 4])], 2⟩

def c3q : IterEntry := ⟨"g", c3t, ["colY", "colX"], none⟩

def c4t : Trans := ⟨"c4t", true, true, true,
  fun d => ⟨[(Lbl.single "xx", [7, 8])], d.nrow⟩⟩

def c4pp : PP :=
  ⟨[⟨"g", some c4t, ["x"]⟩, ⟨"nul", none, ["z"]⟩], -1, [], false⟩

def c4X : DF := ⟨[(Lbl.single "x", [1, 2]), (Lbl.single "z", [5, 6])], 2⟩

def c4R : DF :=
  ⟨[(Lbl.pair "x" "xx", [7, 8]), (Lbl.pair "z" "z", [5, 6])], 2⟩

def c6good : Trans := ⟨"GoodT()", true, true, true, fun d => d⟩

/-- An operator exposing `fit` but no `transform`. -/
def c6bad : Trans := ⟨"BadT()", true, true, false, fun d => d⟩

def c6pp : PP :=
  ⟨[⟨"a", some c6good, ["x"]⟩, ⟨"b", none, ["y"]⟩, ⟨"c", some c6bad, ["z"]⟩],
   -1, [], false⟩

def c7t1 : Trans := ⟨"c7t1", true, true, true,
  fun _ => ⟨[(Lbl.single "a", [1])], 1⟩⟩

def c7t2 : Trans := ⟨"c7t2", true, true, true,
  fun _ => ⟨[(Lbl.single "a", [2])], 1⟩⟩

def c7pp : PP :=
  ⟨[⟨"u1", some c7t1, ["x"]⟩, ⟨"u2", some c7t2, ["y"]⟩], -1, [], true⟩

def c7X : DF := ⟨[(Lbl.single "x", [0]), (Lbl.single "y", [0])], 1⟩

def c7wt : Trans := ⟨"c7wt", true, true, true,
  fun _ => ⟨[(Lbl.single "b", [3]), (Lbl.single "b", [4])], 1⟩⟩

def c7wpp : PP := ⟨[⟨"w", some c7wt, ["x"]⟩], -1, [], true⟩

def c7wX : DF := ⟨[(Lbl.single "x", [0])], 1⟩

def c8Xs : DF :=
  ⟨[(Lbl.single "a", [1, 2]), (Lbl.single "b", [3, 4])], 2⟩

/-- A provenance-indexed frame where the name `o` occurs at the origin
level of one column and at the derived-name level of another. -/
def c8Xm : DF := ⟨[(Lbl.pair "o" "d1", [1]), (Lbl.pair "p" "o", [2])], 1⟩

def c9canon : CS := [("intent,x", none), ("intent,y", none)]

def c9units : List FittedUnit :=
  [⟨[[("intent,x", some 1)]]⟩, ⟨[[("intent,y", some 2)]]⟩]

/-! ## Scheduler lemmas -/

theorem indepUnits_cons (p : Nat × List StepEntry) (t : ColumnMapping) :
    indepUnits (p :: t) =
      (if isHomog p.2 then
        [PlanUnit.indep p.1 (p.2.map StepEntry.op) (headCols p.2)]
      else []) ++ indepUnits t := by
  by_cases h : isHomog p.2 <;> simp [indepUnits, h]

theorem indepUnits_filter_of_not_mem (m : ColumnMapping) (g : Nat)
    (h : g ∉ m.map Prod.fst) :
    (indepUnits m).filter (fun u => decide (u.gid? = some g)) = [] := by
  induction m with
  | nil => rfl
  | cons p t ih =>
    simp only [List.map_cons, List.mem_cons, not_or] at h
    obtain ⟨h1, h2⟩ := h
    rw [indepUnits_cons, List.filter_append, ih h2, List.append_nil]
    by_cases hh : isHomog p.2
    · simp [hh, List.filter, PlanUnit.gid?, Ne.symm h1]
    · simp [hh]

theorem indepUnits_filter_eq (m : ColumnMapping) (g : Nat)
    (steps : List StepEntry)
    (hnd : (m.map Prod.fst).Nodup)
    (hmem : (g, steps) ∈ m)
    (hhom : isHomog steps = true) :
    (indepUnits m).filter (fun u => decide (u.gid? = some g)) =
      [PlanUnit.indep g (steps.map StepEntry.op) (headCols steps)] := by
  induction m with
  | nil => cases hmem
  | cons p t ih =>
    rw [indepUnits_cons, List.filter_append]
    rcases List.mem_cons.mp hmem with heq | hmem2
    · subst heq
      have hg : g ∉ t.map Prod.fst := by
        simpa using (List.nodup_cons.mp hnd).1
      rw [indepUnits_filter_of_not_mem t g hg]
      simp [hhom, List.filter, PlanUnit.gid?]
    · have hne : p.1 ≠ g := by
        have : p.1 ∉ t.map Prod.fst := by
          simpa using (List.nodup_cons.mp hnd).1
        intro hc
        exact this (hc ▸ (List.mem_map.mpr ⟨(g, steps), hmem2, rfl⟩))
      have htail := ih (List.nodup_cons.mp hnd).2 hmem2
      rw [htail]
      by_cases hh : isHomog p.2
      · simp [hh, List.filter, PlanUnit.gid?, hne]
      · simp [hh]

theorem mapE_ok_of_forall {ε α β : Type} (f : α → Except ε β) (g : α → β)
    (l : List α) (h : ∀ a ∈ l, f a = Except.ok (g a)) :
    mapE f l = Except.ok (l.map g) := by
  induction l with
  | nil => rfl
  | cons a t ih =>
    have ha := h a (List.mem_cons_self a t)
    have ht := ih (fun b hb => h b (List.mem_cons_of_mem a hb))
    simp only [mapE, ha, ht]
    rfl

theorem buildFusedStep_ok (hets : List (Nat × List StepEntry)) (i : Nat)
    (h : ∀ p ∈ hets, i < p.2.length) :
    buildFusedStep hets i =
      Except.ok (hets.map (fun p =>
        (p.1, (p.2.getD i ⟨"", []⟩).op, (p.2.getD i ⟨"", []⟩).cols))) := by
  unfold buildFusedStep
  apply mapE_ok_of_forall
  intro p hp
  have hi := h p hp
  cases hg : p.2.get? i with
  | none => exact absurd (List.get?_eq_none.mp hg) (by omega)
  | some s =>
    have hd : p.2.getD i ⟨"", []⟩ = s := by
      rw [List.getD_eq_getElem?_getD, ← List.get?_eq_getElem?, hg]
      rfl
    rw [hd]

theorem parallelizeMapping_empty (m : ColumnMapping)
    (h : hasEmptyGroup m = true) :
    parallelizeMapping m = Except.error SchedErr.indexError := by
  unfold parallelizeMapping
  rw [if_pos h]

theorem parallelizeMapping_homog (m : ColumnMapping)
    (hne : hasEmptyGroup m = false)
    (hhet : (hetGroups m).isEmpty = true) :
    parallelizeMapping m = Except.ok (indepUnits m) := by
  unfold parallelizeMapping
  rw [if_neg (by simp [hne]), if_pos hhet]

theorem parallelizeMapping_het (m : ColumnMapping) (steps0 : List StepEntry)
    (hne : hasEmptyGroup m = false)
    (hhet : (hetGroups m).isEmpty = false)
    (h0 : lookupGroup m 0 = some steps0) :
    parallelizeMapping m =
      (mapE (buildFusedStep (hetGroups m)) (List.range steps0.length)).map
        (fun fusedSteps => indepUnits m ++
          [PlanUnit.fused fusedSteps
            (pyDedup ((fusedSteps.map
              (fun st => st.map (fun e => e.2.2))).flatten.flatten))]) := by
  unfold parallelizeMapping
  rw [if_neg (by simp [hne]), if_neg (by simp [hhet]), h0]

theorem parallelizeMapping_no_key0 (m : ColumnMapping)
    (hne : hasEmptyGroup m = false)
    (hhet : (hetGroups m).isEmpty = false)
    (h0 : lookupGroup m 0 = none) :
    parallelizeMapping m = Except.error SchedErr.keyError := by
  unfold parallelizeMapping
  rw [if_neg (by simp [hne]), if_neg (by simp [hhet]), h0]

/-! ## Theorems for claims C1 and C2 -/

/-- C1: for every column mapping (with dict-unique group ids) and every
group whose column subset is identical across all of its ordered steps, a
successful plan contains exactly one execution unit for that group — the
group's operators in step order as one sequential sub-pipeline over the
fixed column subset — and that unit is an independent one (not part of the
fused block), so it carries no cross-group dependency. -/
theorem homogeneous_group_single_unit (m : ColumnMapping)
    (plan : List PlanUnit) (g : Nat) (steps : List StepEntry)
    (hnd : (m.map Prod.fst).Nodup)
    (hmem : (g, steps) ∈ m)
    (hhom : isHomog steps = true)
    (hplan : parallelizeMapping m = Except.ok plan) :
    plan.filter (fun u => decide (u.gid? = some g)) =
      [PlanUnit.indep g (steps.map StepEntry.op) (headCols steps)] := by
  by_cases h1 : hasEmptyGroup m
  · rw [parallelizeMapping_empty m h1] at hplan
    exact absurd hplan (by simp)
  · have hne : hasEmptyGroup m = false := eq_false_of_ne_true h1
    by_cases h2 : (hetGroups m).isEmpty
    · rw [parallelizeMapping_homog m hne h2] at hplan
      cases hplan
      exact indepUnits_filter_eq m g steps hnd hmem hhom
    · have hhet : (hetGroups m).isEmpty = false := eq_false_of_ne_true h2
      cases hfind : lookupGroup m 0 with
      | none =>
        rw [parallelizeMapping_no_key0 m hne hhet hfind] at hplan
        exact absurd hplan (by simp)
      | some s0 =>
        rw [parallelizeMapping_het m s0 hne hhet hfind] at hplan
        cases hmap : mapE (buildFusedStep (hetGroups m))
            (List.range s0.length) with
        | error e =>
          rw [hmap] at hplan
          exact absurd hplan (by simp [Except.map])
        | ok fs =>
          rw [hmap] at hplan
          simp only [Except.map, Except.ok.injEq] at hplan
          subst hplan
          rw [List.filter_append]
          have : (List.filter (fun u => decide (u.gid? = some g))
              [PlanUnit.fused fs (pyDedup ((fs.map
                (fun st => st.map (fun e => e.2.2))).flatten.flatten))]) = [] := by
            simp [List.filter, PlanUnit.gid?]
          rw [this, List.append_nil]
          exact indepUnits_filter_eq m g steps hnd hmem hhom

theorem homogeneous_group_single_unit_witness :
    ([PlanUnit.indep 0 ["op1", "op2"] ["colX"]].filter
        (fun u => decide (u.gid? = some 0))) =
      [PlanUnit.indep 0 ["op1", "op2"] ["colX"]] :=
  homogeneous_group_single_unit c1Mapping
    [PlanUnit.indep 0 ["op1", "op2"] ["colX"]] 0
    [⟨"op1", ["colX"]⟩, ⟨"op2", ["colX"]⟩]
    (by decide) (by decide) rfl rfl

/-- C2 counterexample: with group 0 homogeneous (one step) and group 1
heterogeneous (two steps), the fused block has one super-step — the step
count of group 0 — not the claimed maximum step count (two) among the
heterogeneous groups; group 1's second operator is silently dropped. -/
theorem fused_block_counterexample :
    parallelizeMapping c2cexMapping =
      Except.ok [PlanUnit.indep 0 ["op0"] ["x"],
        PlanUnit.fused [[(1, "a", ["y"])]] ["y"]] ∧
    (PlanUnit.fused [[(1, "a", ["y"])]] ["y"]).superStepCount = 1 ∧
    maxHetSteps c2cexMapping = 2 :=
  ⟨rfl, rfl, rfl⟩

/-- C2 as amended: when some group is step-heterogeneous, a group with id 0
exists, and every heterogeneous group has at least `len(column_mapping[0])`
steps, the plan is the homogeneous groups' units followed by exactly one
fused block whose super-step count equals the step count of the id-0 group
(not the maximum among heterogeneous groups), and whose super-step `i`
holds exactly each heterogeneous group's position-`i` operator tagged with
that group's own position-`i` column subset, in mapping order. -/
theorem fused_block_super_steps (m : ColumnMapping) (steps0 : List StepEntry)
    (hne : hasEmptyGroup m = false)
    (hhet : (hetGroups m).isEmpty = false)
    (h0 : lookupGroup m 0 = some steps0)
    (hlen : ∀ p ∈ hetGroups m, steps0.length ≤ p.2.length) :
    ∃ cols, parallelizeMapping m =
        Except.ok (indepUnits m ++
          [PlanUnit.fused (fusedStepsOf m steps0.length) cols]) ∧
      (fusedStepsOf m steps0.length).length = steps0.length ∧
      ∀ i, i < steps0.length →
        (fusedStepsOf m steps0.length).get? i =
          some ((hetGroups m).map (fun p =>
            (p.1, (p.2.getD i ⟨"", []⟩).op, (p.2.getD i ⟨"", []⟩).cols))) := by
  have hmap : mapE (buildFusedStep (hetGroups m)) (List.range steps0.length) =
      Except.ok (fusedStepsOf m steps0.length) := by
    apply mapE_ok_of_forall
    intro i hi
    exact buildFusedStep_ok (hetGroups m) i
      (fun p hp => lt_of_lt_of_le (List.mem_range.mp hi) (hlen p hp))
  refine ⟨pyDedup (((fusedStepsOf m steps0.length).map
      (fun st => st.map (fun e => e.2.2))).flatten.flatten), ?_, ?_, ?_⟩
  · rw [parallelizeMapping_het m steps0 hne hhet h0, hmap]
    rfl
  · simp [fusedStepsOf]
  · intro i hi
    rw [fusedStepsOf, List.get?_map, List.get?_range hi]
    rfl

theorem fused_block_super_steps_witness :
    ∃ cols, parallelizeMapping c2wMapping =
        Except.ok (indepUnits c2wMapping ++
          [PlanUnit.fused (fusedStepsOf c2wMapping 2) cols]) ∧
      (fusedStepsOf c2wMapping 2).length = 2 ∧
      ∀ i, i < 2 →
        (fusedStepsOf c2wMapping 2).get? i =
          some ((hetGroups c2wMapping).map (fun p =>
            (p.1, (p.2.getD i ⟨"", []⟩).op, (p.2.getD i ⟨"", []⟩).cols))) :=
  fused_block_super_steps c2wMapping [⟨"p", ["x"]⟩, ⟨"q", ["x", "x2"]⟩]
    rfl rfl rfl (by decide)

/-! ## Engine lemmas -/

theorem exc_ok_bind {ε α β : Type} (a : α) (f : α → Except ε β) :
    (Except.ok a >>= f) = f a := rfl

theorem exc_err_bind {ε α β : Type} (e : ε) (f : α → Except ε β) :
    ((Except.error e : Except ε α) >>= f) = Except.error e := rfl

theorem mapE_ok_mem {ε α β : Type} (f : α → Except ε β) (l : List α)
    (bs : List β) (h : mapE f l = Except.ok bs) :
    ∀ a ∈ l, ∃ b, f a = Except.ok b ∧ b ∈ bs := by
  induction l generalizing bs with
  | nil => intro a ha; exact absurd ha (List.not_mem_nil a)
  | cons x t ih =>
    intro a ha
    simp only [mapE] at h
    cases hx : f x with
    | error e => rw [hx, exc_err_bind] at h; cases h
    | ok b0 =>
      rw [hx, exc_ok_bind] at h
      cases ht : mapE f t with
      | error e => rw [ht, exc_err_bind] at h; cases h
      | ok bs2 =>
        rw [ht, exc_ok_bind] at h
        cases h
        rcases List.mem_cons.mp ha with rfl | ha2
        · exact ⟨b0, hx, List.mem_cons_self _ _⟩
        · obtain ⟨b, hb, hbmem⟩ := ih bs2 ht a ha2
          exact ⟨b, hb, List.mem_cons_of_mem _ hbmem⟩

theorem mapE_ok_mem_rev {ε α β : Type} (f : α → Except ε β) (l : List α)
    (bs : List β) (h : mapE f l = Except.ok bs) :
    ∀ b ∈ bs, ∃ a ∈ l, f a = Except.ok b := by
  induction l generalizing bs with
  | nil =>
    intro b hb
    simp only [mapE] at h
    cases h
    exact absurd hb (List.not_mem_nil b)
  | cons x t ih =>
    intro b hb
    simp only [mapE] at h
    cases hx : f x with
    | error e => rw [hx, exc_err_bind] at h; cases h
    | ok b0 =>
      rw [hx, exc_ok_bind] at h
      cases ht : mapE f t with
      | error e => rw [ht, exc_err_bind] at h; cases h
      | ok bs2 =>
        rw [ht, exc_ok_bind] at h
        cases h
        rcases List.mem_cons.mp hb with rfl | hb2
        · exact ⟨x, List.mem_cons_self _ _, hx⟩
        · obtain ⟨a, ha, hab⟩ := ih bs2 ht b hb2
          exact ⟨a, List.mem_cons_of_mem _ ha, hab⟩

theorem natListLt_irrefl (a : List Nat) : natListLt a a = false := by
  induction a with
  | nil => rfl
  | cons c cs ih => simp [natListLt, ih]

theorem natListLt_asymm (a b : List Nat) (h : natListLt a b = true) :
    natListLt b a = false := by
  induction a generalizing b with
  | nil =>
    cases b with
    | nil => cases h
    | cons d ds => rfl
  | cons c cs ih =>
    cases b with
    | nil => cases h
    | cons d ds =>
      simp only [natListLt] at h ⊢
      by_cases hcd : c < d
      · rw [if_neg (by omega), if_pos hcd]
      · rw [if_neg hcd] at h
        by_cases hdc : d < c
        · rw [if_pos hdc] at h; cases h
        · rw [if_neg hdc] at h
          rw [if_neg hcd, if_neg hdc]
          exact ih ds h

theorem natListLt_cotrans (a b : List Nat) (h : natListLt a b = true) :
    ∀ c, natListLt a c = true ∨ natListLt c b = true := by
  induction a generalizing b with
  | nil =>
    intro c
    cases b with
    | nil => cases h
    | cons d ds =>
      cases c with
      | nil => exact Or.inr h
      | cons e es => exact Or.inl rfl
  | cons x xs ih =>
    intro c
    cases b with
    | nil => cases h
    | cons d ds =>
      cases c with
      | nil => exact Or.inr rfl
      | cons e es =>
        simp only [natListLt] at h ⊢
        by_cases hxe : x < e
        · exact Or.inl (by rw [if_pos hxe])
        · by_cases hed : e < d
          · exact Or.inr (by rw [if_pos hed])
          · by_cases hex : e < x
            · -- then x > e, and from h either x < d or x = d with tail lt
              by_cases hxd : x < d
              · exact Or.inr (by rw [if_pos (by omega)])
              · rw [if_neg hxd] at h
                by_cases hdx : d < x
                · rw [if_pos hdx] at h; cases h
                · omega
            · -- x = e
              have hxe2 : x = e := by omega
              subst hxe2
              by_cases hxd : x < d
              · exact Or.inr (by rw [if_pos hxd])
              · rw [if_neg hxd] at h
                by_cases hdx : d < x
                · rw [if_pos hdx] at h; cases h
                · rw [if_neg hdx] at h
                  rcases ih ds h es with h1 | h2
                  · exact Or.inl (by
                      rw [if_neg (by omega), if_neg (by omega)]
                      exact h1)
                  · exact Or.inr (by
                      rw [if_neg (by omega), if_neg (by omega)]
                      exact h2)

theorem pyStrLt_irrefl (a : String) : pyStrLt a a = false :=
  natListLt_irrefl (codes a)

theorem pyStrLt_asymm (a b : String) (h : pyStrLt a b = true) :
    pyStrLt b a = false :=
  natListLt_asymm (codes a) (codes b) h

theorem pyStrLt_cotrans (a b c : String) (h : pyStrLt a b = true) :
    pyStrLt a c = true ∨ pyStrLt c b = true :=
  natListLt_cotrans (codes a) (codes b) h (codes c)

theorem foldl_min_spec (cs : List String) : ∀ c : String,
    (cs.foldl (fun a b => if pyStrLt b a then b else a) c) ∈ c :: cs ∧
    ∀ x ∈ c :: cs,
      pyStrLt x (cs.foldl (fun a b => if pyStrLt b a then b else a) c) =
        false := by
  induction cs with
  | nil =>
    intro c
    refine ⟨List.mem_singleton.mpr rfl, ?_⟩
    intro x hx
    rw [List.mem_singleton.mp hx]
    exact pyStrLt_irrefl c
  | cons b t ih =>
    intro c
    have hstep : ((b :: t).foldl (fun a b => if pyStrLt b a then b else a) c)
        = t.foldl (fun a b => if pyStrLt b a then b else a)
            (if pyStrLt b c then b else c) := rfl
    obtain ⟨hmem, hlt⟩ := ih (if pyStrLt b c then b else c)
    have hres_not_lt : pyStrLt
        (if pyStrLt b c then b else c)
        (t.foldl (fun a b => if pyStrLt b a then b else a)
          (if pyStrLt b c then b else c)) = false :=
      hlt _ (List.mem_cons_self _ _)
    have hcovers : ∀ x, (x = c ∨ x = b) →
        pyStrLt x (if pyStrLt b c then b else c) = false := by
      intro x hx
      by_cases hbc : pyStrLt b c
      · rw [if_pos hbc]
        rcases hx with rfl | rfl
        · exact pyStrLt_asymm b x hbc
        · exact pyStrLt_irrefl x
      · rw [if_neg hbc]
        rcases hx with rfl | rfl
        · exact pyStrLt_irrefl x
        · exact eq_false_of_ne_true hbc
    have not_lt_res : ∀ x, (x = c ∨ x = b) →
        pyStrLt x (t.foldl (fun a b => if pyStrLt b a then b else a)
          (if pyStrLt b c then b else c)) = false := by
      intro x hx
      cases hval : pyStrLt x (t.foldl (fun a b => if pyStrLt b a then b else a)
          (if pyStrLt b c then b else c)) with
      | false => rfl
      | true =>
        rcases pyStrLt_cotrans x _ (if pyStrLt b c then b else c) hval
          with h1 | h2
        · rw [hcovers x hx] at h1; cases h1
        · rw [hres_not_lt] at h2; cases h2
    constructor
    · rw [hstep]
      rcases List.mem_cons.mp hmem with heq | hmem2
      · rw [heq]
        by_cases hbc : pyStrLt b c
        · simp only [if_pos hbc]
          exact List.mem_cons_of_mem _ (List.mem_cons_self _ _)
        · simp only [if_neg hbc]
          exact List.mem_cons_self _ _
      · exact List.mem_cons_of_mem _ (List.mem_cons_of_mem _ hmem2)
    · intro x hx
      rw [hstep]
      rcases List.mem_cons.mp hx with heq | hx2
      · exact not_lt_res x (Or.inl heq)
      · rcases List.mem_cons.mp hx2 with heq | hx3
        · exact not_lt_res x (Or.inr heq)
        · exact hlt _ (List.mem_cons_of_mem _ hx3)

theorem pyMinStr_spec (l : List String) (m : String)
    (h : pyMinStr l = some m) : m ∈ l ∧ ∀ c ∈ l, pyStrLt c m = false := by
  cases l with
  | nil => cases h
  | cons c cs =>
    simp only [pyMinStr, Option.some.injEq] at h
    subst h
    exact foldl_min_spec cs c

theorem filterMap_iter_names (l : List TEntry) (w : String → Option Int) :
    ((l.filterMap (fun e => e.trans.map
      (fun t => (⟨e.name, t, e.cols, w e.name⟩ : IterEntry)))).map
        IterEntry.name) =
      (l.filter (fun e => e.trans.isSome)).map TEntry.name := by
  induction l with
  | nil => rfl
  | cons e t ih =>
    cases he : e.trans with
    | none => simp [List.filterMap_cons, he, List.filter_cons, ih]
    | some tr => simp [List.filterMap_cons, he, List.filter_cons, ih]

theorem dispatched_eq (pp : PP) :
    dispatchedNames pp =
      (pp.transformer_list.filter (fun e => e.trans.isSome)).map
        TEntry.name :=
  filterMap_iter_names pp.transformer_list (weightOf pp)

theorem ppTransform_eq (pp : PP) (X : DF) (Xs : List DF) (other : List Lbl)
    (hXs : mapE (transformUnit pp X) (iterEntries pp) = Except.ok Xs)
    (hother : getOtherCols pp X = Except.ok other) :
    ppTransform pp X =
      assembleParts pp.collapse_index X.nrow (withPassthrough X other Xs) := by
  unfold ppTransform
  simp only [hXs, hother, exc_ok_bind]

theorem ppTransform_err1 (pp : PP) (X : DF) (e : EErr)
    (hXs : mapE (transformUnit pp X) (iterEntries pp) = Except.error e) :
    ppTransform pp X = Except.error e := by
  unfold ppTransform
  simp only [hXs, exc_err_bind]

theorem ppTransform_err2 (pp : PP) (X : DF) (Xs : List DF) (e : EErr)
    (hXs : mapE (transformUnit pp X) (iterEntries pp) = Except.ok Xs)
    (hother : getOtherCols pp X = Except.error e) :
    ppTransform pp X = Except.error e := by
  unfold ppTransform
  simp only [hXs, hother, exc_ok_bind, exc_err_bind]

theorem ppFitTransform_eq (pp : PP) (X : DF) (res : List DF)
    (other : List Lbl)
    (hval : validateTransformers pp = Except.ok ())
    (hres : mapE (transformUnit pp X) (iterEntries pp) = Except.ok res)
    (hne : res.isEmpty = false)
    (hother : getOtherCols pp X = Except.ok other) :
    ppFitTransform pp X = Except.ok
      (concatCollapse pp.collapse_index X.nrow
        (withPassthrough X other res)) := by
  unfold ppFitTransform
  simp only [hval, hres, hother, exc_ok_bind, hne, Bool.false_eq_true,
    if_false]

theorem ppFitTransform_errv (pp : PP) (X : DF) (e : EErr)
    (hval : validateTransformers pp = Except.error e) :
    ppFitTransform pp X = Except.error e := by
  unfold ppFitTransform
  simp only [hval, exc_err_bind]

theorem ppFitTransform_err1 (pp : PP) (X : DF) (e : EErr)
    (hval : validateTransformers pp = Except.ok ())
    (hres : mapE (transformUnit pp X) (iterEntries pp) = Except.error e) :
    ppFitTransform pp X = Except.error e := by
  unfold ppFitTransform
  simp only [hval, hres, exc_ok_bind, exc_err_bind]

theorem ppFitTransform_empty (pp : PP) (X : DF)
    (hval : validateTransformers pp = Except.ok ())
    (hres : mapE (transformUnit pp X) (iterEntries pp) = Except.ok []) :
    ppFitTransform pp X = Except.ok ⟨[], X.nrow⟩ := by
  unfold ppFitTransform
  simp only [hval, hres, exc_ok_bind, List.isEmpty_nil, if_true]

theorem ppFitTransform_err2 (pp : PP) (X : DF) (res : List DF) (e : EErr)
    (hval : validateTransformers pp = Except.ok ())
    (hres : mapE (transformUnit pp X) (iterEntries pp) = Except.ok res)
    (hne : res.isEmpty = false)
    (hother : getOtherCols pp X = Except.error e) :
    ppFitTransform pp X = Except.error e := by
  unfold ppFitTransform
  simp only [hval, hres, hother, exc_ok_bind, exc_err_bind, hne,
    Bool.false_eq_true, if_false]

theorem isEmpty_false_of_mem {α : Type} {a : α} {l : List α} (h : a ∈ l) :
    l.isEmpty = false := by
  cases l with
  | nil => exact absurd h (List.not_mem_nil a)
  | cons x t => rfl

theorem mem_withPassthrough (X : DF) (other : List Lbl) (Xs : List DF)
    (b : DF) (hb : b ∈ Xs) : b ∈ withPassthrough X other Xs := by
  unfold withPassthrough
  by_cases h : (passthroughFrame X other).cols.isEmpty
  · rw [if_pos h]; exact hb
  · rw [if_neg h]; exact List.mem_append_left _ hb

theorem assembleParts_ok_of_ne (collapse : Bool) (nrow : Nat)
    (parts : List DF) (hne : parts ≠ []) :
    assembleParts collapse nrow parts =
      Except.ok (concatCollapse collapse nrow parts) := by
  unfold assembleParts
  rw [if_neg (fun hcontra => hne (List.isEmpty_iff.mp hcontra))]

theorem concatCollapse_false_cols (nrow : Nat) (parts : List DF) :
    (concatCollapse false nrow parts).cols = (parts.map DF.cols).flatten :=
  rfl

theorem mem_concatCollapse_false (nrow : Nat) (parts : List DF) (b : DF)
    (hb : b ∈ parts) (x : Lbl × List Int) (hx : x ∈ b.cols) :
    x ∈ (concatCollapse false nrow parts).cols := by
  rw [concatCollapse_false_cols]
  exact List.mem_flatten.mpr ⟨b.cols, List.mem_map.mpr ⟨b, hb, rfl⟩, hx⟩

/-! ## Theorems for claims C3 and C4 -/

/-- C3: in every successful `transform` or `fit_transform` run with a
non-collapsed index, every column of a unit's raw (weighted) output
appears in the concatenated result tagged with a two-level provenance
label whose origin is the lexicographically smallest name of that unit's
input column subset and whose derived name is the output column's own
name. -/
theorem transform_provenance (pp : PP) (X R : DF)
    (hc : pp.collapse_index = false)
    (hok : ppTransform pp X = Except.ok R ∨
      ppFitTransform pp X = Except.ok R) :
    ∀ q ∈ iterEntries pp, ∀ Y, sliceCols X q.cols true = Except.ok Y →
      ∀ n vs,
        (Lbl.single n, vs) ∈ (applyWeight q.weight (q.trans.tf Y)).cols →
        ∃ o, pyMinStr q.cols = some o ∧ o ∈ q.cols ∧
          (∀ c ∈ q.cols, pyStrLt c o = false) ∧
          (Lbl.pair o n, vs) ∈ R.cols := by
  intro q hq Y hY n vs hvs
  cases hm : mapE (transformUnit pp X) (iterEntries pp) with
  | error e =>
    rcases hok with hok | hok
    · rw [ppTransform_err1 pp X e hm] at hok; cases hok
    · cases hv : validateTransformers pp with
      | error ev => rw [ppFitTransform_errv pp X ev hv] at hok; cases hok
      | ok u =>
        cases u
        rw [ppFitTransform_err1 pp X e hv hm] at hok; cases hok
  | ok Xs =>
    obtain ⟨b, hb, hbXs⟩ := mapE_ok_mem _ _ _ hm q hq
    have hbu : pandasTransformOne q.trans q.weight Y q.cols
        pp.collapse_index = Except.ok b := by
      have hTU : transformUnit pp X q =
          pandasTransformOne q.trans q.weight Y q.cols pp.collapse_index := by
        unfold transformUnit
        rw [hY, exc_ok_bind]
      rw [← hTU]
      exact hb
    rw [hc] at hbu
    unfold pandasTransformOne at hbu
    split at hbu
    · cases hbu
    · rename_i colname hmin
      simp only [Bool.false_eq_true, if_false] at hbu
      cases hbu
      obtain ⟨hmem_min, hle_min⟩ := pyMinStr_spec q.cols colname hmin
      refine ⟨colname, hmin, hmem_min, hle_min, ?_⟩
      have htag : (Lbl.pair colname n, vs) ∈
          (tagCols colname (applyWeight q.weight (q.trans.tf Y))).cols :=
        List.mem_map.mpr ⟨(Lbl.single n, vs), hvs, rfl⟩
      cases ho : getOtherCols pp X with
      | error e2 =>
        rcases hok with hok | hok
        · rw [ppTransform_err2 pp X Xs e2 hm ho] at hok; cases hok
        · cases hv : validateTransformers pp with
          | error ev =>
            rw [ppFitTransform_errv pp X ev hv] at hok; cases hok
          | ok u =>
            cases u
            rw [ppFitTransform_err2 pp X Xs e2 hv hm
              (isEmpty_false_of_mem hbXs) ho] at hok
            cases hok
      | ok other =>
        have hbW := mem_withPassthrough X other Xs _ hbXs
        rcases hok with hok | hok
        · rw [ppTransform_eq pp X Xs other hm ho,
            assembleParts_ok_of_ne _ _ _ (List.ne_nil_of_mem hbW)] at hok
          cases hok
          rw [hc]
          exact mem_concatCollapse_false _ _ _ hbW _ htag
        · cases hv : validateTransformers pp with
          | error ev =>
            rw [ppFitTransform_errv pp X ev hv] at hok; cases hok
          | ok u =>
            cases u
            rw [ppFitTransform_eq pp X Xs other hv hm
              (isEmpty_false_of_mem hbXs) ho] at hok
            cases hok
            rw [hc]
            exact mem_concatCollapse_false _ _ _ hbW _ htag

theorem contains_of_mem {α : Type} [BEq α] [LawfulBEq α] {a : α}
    {l : List α} (h : a ∈ l) : l.contains a = true :=
  List.elem_iff.mpr h

theorem mem_of_contains {α : Type} [BEq α] [LawfulBEq α] {a : α}
    {l : List α} (h : l.contains a = true) : a ∈ l :=
  List.elem_iff.mp h

theorem contains_eq_false_of_not_mem {α : Type} [BEq α] [LawfulBEq α]
    {a : α} {l : List α} (h : a ∉ l) : l.contains a = false := by
  cases hc : l.contains a with
  | false => rfl
  | true => exact absurd (mem_of_contains hc) h

theorem getOtherCols_eq (pp : PP) (X : DF) (part : DF)
    (hpart : sliceCols X ((iterEntries pp).map IterEntry.cols).flatten
      false = Except.ok part) :
    getOtherCols pp X = Except.ok ((X.cols.map Prod.fst).filter
      (fun l => !((part.cols.map Prod.fst).contains l))) := by
  unfold getOtherCols
  rw [hpart]
  rfl

theorem getOtherCols_err (pp : PP) (X : DF) (e : EErr)
    (hpart : sliceCols X ((iterEntries pp).map IterEntry.cols).flatten
      false = Except.error e) :
    getOtherCols pp X = Except.error e := by
  unfold getOtherCols
  rw [hpart]
  rfl

theorem sliceCols_single_labels (X : DF) (cols : List Col) (d : Bool)
    (part : DF)
    (hX : ∀ p ∈ X.cols, p.1.isPair = false)
    (h : sliceCols X cols d = Except.ok part) :
    ∀ p ∈ part.cols, ∃ a ∈ cols, p.1 = Lbl.single a := by
  intro p hp
  unfold sliceCols at h
  split at h
  · rename_i heq
    cases h
    rw [heq] at hp
    exact absurd hp (List.not_mem_nil p)
  · rename_i p0 rest heq
    by_cases hce : cols.isEmpty
    · rw [if_pos hce] at h
      cases h
      exact absurd hp (List.not_mem_nil p)
    · rw [if_neg hce] at h
      have hp0 : p0.1.isPair = false := hX p0 (heq ▸ List.mem_cons_self _ _)
      rw [hp0] at h
      simp only [Bool.false_eq_true, if_false] at h
      cases hmsel : mapE (selectByName X) cols with
      | error e => rw [hmsel] at h; cases h
      | ok sel =>
        rw [hmsel] at h
        simp only [Except.map, Except.ok.injEq] at h
        subst h
        obtain ⟨a, ha, hs⟩ := mapE_ok_mem_rev _ _ _ hmsel p hp
        refine ⟨a, ha, ?_⟩
        unfold selectByName at hs
        split at hs
        · rename_i q hq
          cases hs
          have hpred := List.find?_some hq
          simp only at hpred
          exact eq_of_beq hpred
        · cases hs

theorem promoteXo_mem (Xo : DF)
    (hX : ∀ p ∈ Xo.cols, p.1.isPair = false)
    (c : String) (vs : List Int) (hm : (Lbl.single c, vs) ∈ Xo.cols) :
    (Lbl.pair c c, vs) ∈ (promoteXo Xo).cols := by
  unfold promoteXo
  split
  · rename_i heq
    rw [heq] at hm
    exact absurd hm (List.not_mem_nil _)
  · rename_i p0 rest heq
    have hp0 : p0.1.isPair = false := hX p0 (heq ▸ List.mem_cons_self _ _)
    rw [hp0]
    simp only [Bool.false_eq_true, if_false]
    exact List.mem_map.mpr ⟨(Lbl.single c, vs), hm, rfl⟩

theorem mem_collapseColumns (R : DF) (x : Lbl × List Int) (hx : x ∈ R.cols) :
    x ∈ (collapseColumns R).cols ∨
      (Lbl.single x.1.newOf, x.2) ∈ (collapseColumns R).cols := by
  unfold collapseColumns
  by_cases hall : R.cols.all (fun p => p.1.isPair)
  · rw [if_pos hall]
    exact Or.inr (List.mem_map.mpr ⟨x, hx, rfl⟩)
  · rw [if_neg hall]
    exact Or.inl hx

theorem mem_concatCollapse (collapse : Bool) (nrow : Nat) (parts : List DF)
    (b : DF) (hb : b ∈ parts) (x : Lbl × List Int) (hx : x ∈ b.cols) :
    x ∈ (concatCollapse collapse nrow parts).cols ∨
      (Lbl.single x.1.newOf, x.2) ∈
        (concatCollapse collapse nrow parts).cols := by
  have hflat : x ∈ (parts.map DF.cols).flatten :=
    List.mem_flatten.mpr ⟨b.cols, List.mem_map.mpr ⟨b, hb, rfl⟩, hx⟩
  cases collapse with
  | false => exact Or.inl hflat
  | true => exact mem_collapseColumns ⟨(parts.map DF.cols).flatten, nrow⟩ x hflat

theorem promote_mem_withPassthrough (X : DF) (other : List Lbl)
    (Xs : List DF)
    (hne : (passthroughFrame X other).cols.isEmpty = false) :
    promoteXo (passthroughFrame X other) ∈ withPassthrough X other Xs := by
  unfold withPassthrough
  rw [hne]
  simp only [Bool.false_eq_true, if_false]
  exact List.mem_append_right _ (List.mem_singleton.mpr rfl)

/-- C4: in every successful `transform` on a single-level frame, an input
column not listed in any non-null unit's column subset — in particular
every column claimed only by a unit with a `None` operator handle — shows
up in the output with its values intact, labelled either by its own name
or by the index-consistent provenance pair `(name, name)`; and the
dispatched work items are exactly the non-null entries, so nothing is ever
dispatched for a `None` handle. -/
theorem transform_passthrough (pp : PP) (X R : DF) (c : String)
    (vs : List Int)
    (hsingle : ∀ p ∈ X.cols, p.1.isPair = false)
    (hmem : (Lbl.single c, vs) ∈ X.cols)
    (hnc : ∀ q ∈ iterEntries pp, c ∉ q.cols)
    (hok : ppTransform pp X = Except.ok R) :
    ((Lbl.pair c c, vs) ∈ R.cols ∨ (Lbl.single c, vs) ∈ R.cols) ∧
    dispatchedNames pp =
      (pp.transformer_list.filter (fun e => e.trans.isSome)).map
        TEntry.name := by
  refine ⟨?_, dispatched_eq pp⟩
  cases hm : mapE (transformUnit pp X) (iterEntries pp) with
  | error e => rw [ppTransform_err1 pp X e hm] at hok; cases hok
  | ok Xs =>
    cases hpart : sliceCols X
        ((iterEntries pp).map IterEntry.cols).flatten false with
    | error e =>
      rw [ppTransform_err2 pp X Xs e hm (getOtherCols_err pp X e hpart)]
        at hok
      cases hok
    | ok part =>
      have hoth := getOtherCols_eq pp X part hpart
      have hcnotin : (Lbl.single c) ∉ part.cols.map Prod.fst := by
        intro hin
        obtain ⟨p, hpmem, hpeq⟩ := List.mem_map.mp hin
        obtain ⟨a, ha, hpl⟩ :=
          sliceCols_single_labels X _ false part hsingle hpart p hpmem
        have hac : a = c := Lbl.single.inj (hpl ▸ hpeq)
        obtain ⟨qc, hqc, hq2⟩ := List.mem_flatten.mp (hac ▸ ha)
        obtain ⟨q, hqmem, hqeq⟩ := List.mem_map.mp hqc
        exact hnc q hqmem (hqeq ▸ hq2)
      have hcother : (Lbl.single c) ∈ (X.cols.map Prod.fst).filter
          (fun l => !((part.cols.map Prod.fst).contains l)) :=
        List.mem_filter.mpr ⟨List.mem_map.mpr ⟨(Lbl.single c, vs), hmem, rfl⟩,
          by rw [contains_eq_false_of_not_mem hcnotin]; rfl⟩
      have hXomem : (Lbl.single c, vs) ∈
          (passthroughFrame X ((X.cols.map Prod.fst).filter
            (fun l => !((part.cols.map Prod.fst).contains l)))).cols :=
        List.mem_filter.mpr ⟨hmem, contains_of_mem hcother⟩
      have hXone : (passthroughFrame X ((X.cols.map Prod.fst).filter
          (fun l => !((part.cols.map Prod.fst).contains l)))).cols.isEmpty
            = false :=
        isEmpty_false_of_mem hXomem
      have hXosingle : ∀ p ∈ (passthroughFrame X
          ((X.cols.map Prod.fst).filter
            (fun l => !((part.cols.map Prod.fst).contains l)))).cols,
          p.1.isPair = false :=
        fun p hp => hsingle p (List.mem_of_mem_filter hp)
      have hprom := promoteXo_mem _ hXosingle c vs hXomem
      have hbW := promote_mem_withPassthrough X
        ((X.cols.map Prod.fst).filter
          (fun l => !((part.cols.map Prod.fst).contains l))) Xs hXone
      rw [ppTransform_eq pp X Xs _ hm hoth,
        assembleParts_ok_of_ne _ _ _ (List.ne_nil_of_mem hbW)] at hok
      cases hok
      rcases mem_concatCollapse pp.collapse_index X.nrow _ _ hbW
        (Lbl.pair c c, vs) hprom with h1 | h2
      · exact Or.inl h1
      · exact Or.inr h2

theorem transform_passthrough_witness :
    ((Lbl.pair "z" "z", [5, 6]) ∈ c4R.cols ∨
      (Lbl.single "z", [5, 6]) ∈ c4R.cols) ∧
    dispatchedNames c4pp =
      (c4pp.transformer_list.filter (fun e => e.trans.isSome)).map
        TEntry.name :=
  transform_passthrough c4pp c4X c4R "z" [5, 6] (by decide) (by decide)
    (by decide) rfl

theorem transform_provenance_witness :
    ∃ o, pyMinStr ["colY", "colX"] = some o ∧ o ∈ ["colY", "colX"] ∧
      (∀ c ∈ ["colY", "colX"], pyStrLt c o = false) ∧
      (Lbl.pair o "out", [9]) ∈
        (⟨[(Lbl.pair "colX" "out", [9])], 2⟩ : DF).cols :=
  transform_provenance c3pp c3X ⟨[(Lbl.pair "colX" "out", [9])], 2⟩ rfl
    (Or.inl rfl) c3q (List.mem_singleton.mpr rfl) c3X rfl "out" [9]
    (List.mem_singleton.mpr rfl)

theorem transformUnit_ok_collapse (pp : PP) (X : DF) (q : IterEntry)
    (b : DF)
    (hc : pp.collapse_index = true)
    (hb : transformUnit pp X q = Except.ok b) :
    ∃ Y, sliceCols X q.cols true = Except.ok Y ∧
      b = applyWeight q.weight (q.trans.tf Y) := by
  unfold transformUnit at hb
  cases hsl : sliceCols X q.cols true with
  | error e => rw [hsl, exc_err_bind] at hb; cases hb
  | ok Y =>
    rw [hsl, exc_ok_bind] at hb
    rw [hc] at hb
    unfold pandasTransformOne at hb
    split at hb
    · cases hb
    · simp only [eq_self_iff_true, if_true] at hb
      cases hb
      exact ⟨Y, rfl, rfl⟩

/-! ## Theorems for claims C6 and C7 -/

/-- C6: on a fit call whose name validation passes, if some non-null
operator in the transformer list lacks both `fit` and `fit_transform` or
lacks `transform`, `fit` fails — for every input frame, i.e. before any
unit's slice or fit work happens — with the `TypeError` naming an
offending operator; and when every non-null operator is capable the
validation passes, so `None` entries are exempt from the capability
check. -/
theorem fit_contract (pp : PP)
    (hne : pp.transformer_list ≠ [])
    (hnames : validateNames (pp.transformer_list.map TEntry.name) =
      Except.ok ()) :
    ((∃ t, t ∈ pp.transformer_list.filterMap TEntry.trans ∧
        capable t = false) →
      ∃ tbad, tbad ∈ pp.transformer_list.filterMap TEntry.trans ∧
        capable tbad = false ∧
        ∀ X, ppFit pp X = Except.error (EErr.typeError tbad.id)) ∧
    ((∀ t ∈ pp.transformer_list.filterMap TEntry.trans, capable t = true) →
      validateTransformers pp = Except.ok ()) := by
  constructor
  · rintro ⟨t, htmem, htbad⟩
    have hsome : ((pp.transformer_list.filterMap TEntry.trans).find?
        (fun t => !capable t)).isSome := by
      rw [List.find?_isSome]
      exact ⟨t, htmem, by rw [htbad]; rfl⟩
    obtain ⟨u, hu⟩ := Option.isSome_iff_exists.mp hsome
    have humem : u ∈ pp.transformer_list.filterMap TEntry.trans :=
      List.mem_of_find?_eq_some hu
    have hunotcap := List.find?_some hu
    simp only at hunotcap
    have hubad : capable u = false := by
      cases hcap : capable u with
      | false => rfl
      | true => rw [hcap] at hunotcap; cases hunotcap
    have hfirst : firstIncapable pp.transformer_list = some u := hu
    refine ⟨u, humem, hubad, ?_⟩
    intro X
    have hval : validateTransformers pp =
        Except.error (EErr.typeError u.id) := by
      unfold validateTransformers
      rw [if_neg (fun hc => hne (List.isEmpty_iff.mp hc)), hnames, hfirst]
    unfold ppFit
    simp only [hval, exc_err_bind]
  · intro hall
    have hnone : firstIncapable pp.transformer_list = none := by
      unfold firstIncapable
      rw [List.find?_eq_none]
      intro t ht
      rw [hall t ht]
      exact Bool.false_ne_true
    unfold validateTransformers
    rw [if_neg (fun hc => hne (List.isEmpty_iff.mp hc)), hnames, hnone]

theorem fit_contract_witness :
    ((∃ t, t ∈ c6pp.transformer_list.filterMap TEntry.trans ∧
        capable t = false) →
      ∃ tbad, tbad ∈ c6pp.transformer_list.filterMap TEntry.trans ∧
        capable tbad = false ∧
        ∀ X, ppFit c6pp X = Except.error (EErr.typeError tbad.id)) ∧
    ((∀ t ∈ c6pp.transformer_list.filterMap TEntry.trans,
        capable t = true) →
      validateTransformers c6pp = Except.ok ()) :=
  fit_contract c6pp (fun h => List.noConfusion h) rfl

/-- C7 counterexample: with a collapsed index requested and two units both
emitting a column named `a`, `transform` returns — with no error — a
table whose column names are `a`, `a`: collapsing produced duplicate names
silently, contradicting the claimed ambiguous-merge failure. -/
theorem collapse_duplicates_counterexample :
    ppTransform c7pp c7X =
      Except.ok ⟨[(Lbl.single "a", [1]), (Lbl.single "a", [2])], 1⟩ ∧
    (([(Lbl.single "a", [1]), (Lbl.single "a", [2])] :
        List (Lbl × List Int)).map (fun p => p.1.newOf)).Nodup = False :=
  ⟨rfl, by simp⟩

/-- C7 as amended: when the caller requests a collapsed index (shown here
with no passthrough columns, where the flatten applies), each unit's
output keeps exactly its own derived column names — the provenance pairs
are never attached — and no duplicate-name check of any kind is performed:
the result's columns are exactly the units' raw outputs, with no
uniqueness hypothesis, so duplicate names are returned silently. -/
theorem collapse_drops_provenance (pp : PP) (X R : DF)
    (hc : pp.collapse_index = true)
    (hsingle : ∀ q ∈ iterEntries pp, ∀ Y, ∀ p ∈ (q.trans.tf Y).cols,
      p.1.isPair = false)
    (hok : ppTransform pp X = Except.ok R)
    (hother : getOtherCols pp X = Except.ok []) :
    ∀ p ∈ R.cols, p.1.isPair = false ∧
      ∃ q, q ∈ iterEntries pp ∧ ∃ Y,
        sliceCols X q.cols true = Except.ok Y ∧
        p ∈ (applyWeight q.weight (q.trans.tf Y)).cols := by
  intro p hp
  cases hm : mapE (transformUnit pp X) (iterEntries pp) with
  | error e => rw [ppTransform_err1 pp X e hm] at hok; cases hok
  | ok Xs =>
    rw [ppTransform_eq pp X Xs [] hm hother] at hok
    have hpf : (passthroughFrame X []).cols = [] := by
      unfold passthroughFrame
      induction X.cols with
      | nil => rfl
      | cons x t ih =>
        rw [List.filter_cons]
        simp only [List.contains, List.elem_nil, if_false, Bool.false_eq_true]
        exact ih
    have hwp : withPassthrough X [] Xs = Xs := by
      unfold withPassthrough
      rw [hpf]
      rfl
    rw [hwp] at hok
    cases Xs with
    | nil =>
      cases hok
      exact absurd hp (List.not_mem_nil p)
    | cons b0 bs =>
      rw [assembleParts_ok_of_ne _ _ _ (List.cons_ne_nil b0 bs)] at hok
      cases hok
      have hflat_single : ∀ x ∈ (((b0 :: bs).map DF.cols).flatten),
          x.1.isPair = false ∧ ∃ q, q ∈ iterEntries pp ∧ ∃ Y,
            sliceCols X q.cols true = Except.ok Y ∧
            x ∈ (applyWeight q.weight (q.trans.tf Y)).cols := by
        intro x hx
        obtain ⟨bc, hbc, hxin⟩ := List.mem_flatten.mp hx
        obtain ⟨b, hbXs, rfl⟩ := List.mem_map.mp hbc
        obtain ⟨q, hq, hfb⟩ := mapE_ok_mem_rev _ _ _ hm b hbXs
        obtain ⟨Y, hY, rfl⟩ := transformUnit_ok_collapse pp X q b hc hfb
        have hxw : x ∈ (applyWeight q.weight (q.trans.tf Y)).cols := hxin
        refine ⟨?_, q, hq, Y, hY, hxw⟩
        cases hw : q.weight with
        | none =>
          have : x ∈ (q.trans.tf Y).cols := by
            rw [hw] at hxw; exact hxw
          exact hsingle q hq Y x this
        | some k =>
          rw [hw] at hxw
          obtain ⟨x0, hx0, hxeq⟩ := List.mem_map.mp hxw
          have := hsingle q hq Y x0 hx0
          rw [← hxeq]
          exact this
      rw [hc] at hp
      by_cases hall : (((b0 :: bs).map DF.cols).flatten).all
          (fun p => p.1.isPair)
      · -- every label would be a pair; but unit labels are single, so the
        -- flattened list must be empty and the goal membership impossible
        unfold concatCollapse collapseColumns at hp
        simp only [if_pos rfl] at hp
        rw [if_pos hall] at hp
        obtain ⟨x0, hx0, hxeq⟩ := List.mem_map.mp hp
        have hsx := (hflat_single x0 hx0).1
        have hpx := List.all_eq_true.mp hall x0 hx0
        rw [hsx] at hpx
        cases hpx
      · unfold concatCollapse collapseColumns at hp
        simp only [if_pos rfl] at hp
        rw [if_neg hall] at hp
        exact hflat_single p hp

theorem collapse_drops_provenance_witness :
    (Lbl.single "b", ([3] : List Int)).1.isPair = false ∧
    ∃ q, q ∈ iterEntries c7wpp ∧ ∃ Y,
      sliceCols c7wX q.cols true = Except.ok Y ∧
      (Lbl.single "b", ([3] : List Int)) ∈
        (applyWeight q.weight (q.trans.tf Y)).cols :=
  collapse_drops_provenance c7wpp c7wX
    ⟨[(Lbl.single "b", [3]), (Lbl.single "b", [4])], 1⟩ rfl
    (by
      intro q hq Y p hp
      have hq2 : q = ⟨"w", c7wt, ["x"], none⟩ := List.mem_singleton.mp hq
      subst hq2
      have hp2 : p ∈ [(Lbl.single "b", [3]), (Lbl.single "b", [4])] := hp
      rcases List.mem_cons.mp hp2 with rfl | hp3
      · rfl
      · rw [List.mem_singleton.mp hp3]
        rfl)
    rfl rfl
    (Lbl.single "b", ([3] : List Int)) (List.mem_cons_self _ _)

/-! ## Theorem for claim C8 -/

theorem xsSlice_ok (X : DF) (c : String) (useNew d : Bool)
    (hne : (xsMatches X c useNew).isEmpty = false) :
    xsSlice X c useNew d = Except.ok ⟨if d then
        (xsMatches X c useNew).map (fun p => (Lbl.single p.1.newOf, p.2))
      else xsMatches X c useNew, X.nrow⟩ := by
  unfold xsSlice
  rw [hne]
  rfl

theorem sliceCols_multi_one (X : DF) (c : Col) (d : Bool)
    (p0 : Lbl × List Int) (rest : List (Lbl × List Int))
    (heq : X.cols = p0 :: rest) (hpair : p0.1.isPair = true)
    (hkeep : keepCols X [c] = [c])
    (b : DF)
    (hone : multiSliceOne X d c = Except.ok b) :
    sliceCols X [c] d = Except.ok ⟨b.cols, X.nrow⟩ := by
  unfold sliceCols
  split
  · rename_i heq2
    rw [heq] at heq2
    cases heq2
  · rename_i p0' rest' heq2
    rw [if_neg (by intro hcon; cases hcon)]
    have hp0' : p0'.1.isPair = true := by
      rw [heq] at heq2
      cases heq2
      exact hpair
    rw [hp0']
    simp only [eq_self_iff_true, if_true]
    unfold multiSlice
    rw [hkeep]
    have hmap := mapE_ok_of_forall (multiSliceOne X d) (fun _ => b) [c]
      (by intro a ha; rw [List.mem_singleton.mp ha]; exact hone)
    rw [hmap]
    simp [exc_ok_bind]

/-- C8: (a) requesting zero columns returns an empty-but-valid frame with
the input's rows; (b) on a single-level frame a request is sliced by plain
name, each requested name yielding its column; (c) on a two-level frame an
unprefixed name is resolved at the `origin` level; (d) a `$`-prefixed name
is resolved at the derived-name (`new`) level instead of the origin
level. -/
theorem slice_cols_spec :
    (∀ (X : DF) (d : Bool), sliceCols X [] d = Except.ok ⟨[], X.nrow⟩) ∧
    (∀ (X : DF) (cols : List Col) (d : Bool),
      (∀ p ∈ X.cols, p.1.isPair = false) →
      (∀ a ∈ cols, ∃ q ∈ X.cols, q.1 = Lbl.single a) →
      cols ≠ [] →
      sliceCols X cols d = Except.ok
        ⟨cols.map (fun a => (Lbl.single a, valueAt X a)), X.nrow⟩) ∧
    (∀ (X : DF) (c : Col) (d : Bool) (p0 : Lbl × List Int)
        (rest : List (Lbl × List Int)),
      X.cols = p0 :: rest → p0.1.isPair = true →
      c.data.isEmpty = false →
      startsDollar c = false →
      (X.cols.map (fun p => p.1.originOf)).contains c = true →
      sliceCols X [c] d = Except.ok ⟨if d then
          (xsMatches X c false).map (fun p => (Lbl.single p.1.newOf, p.2))
        else xsMatches X c false, X.nrow⟩) ∧
    (∀ (X : DF) (c n : Col) (d : Bool) (p0 : Lbl × List Int)
        (rest : List (Lbl × List Int)),
      X.cols = p0 :: rest → p0.1.isPair = true →
      startsDollar c = true → stripDollar c = n →
      (X.cols.map (fun p => p.1.newOf)).contains n = true →
      sliceCols X [c] d = Except.ok ⟨if d then
          (xsMatches X n true).map (fun p => (Lbl.single p.1.newOf, p.2))
        else xsMatches X n true, X.nrow⟩) := by
  refine ⟨?_, ?_, ?_, ?_⟩
  · intro X d
    unfold sliceCols
    split
    · rename_i heq
      cases X with
      | mk xc xn =>
        have hxc : xc = [] := heq
        subst hxc
        rfl
    · rename_i p0 rest heq
      rfl
  · intro X cols d hX hfound hne
    unfold sliceCols
    split
    · rename_i heq
      obtain ⟨a, ha⟩ := List.exists_mem_of_ne_nil cols hne
      obtain ⟨q, hq, _⟩ := hfound a ha
      rw [heq] at hq
      exact absurd hq (List.not_mem_nil q)
    · rename_i p0 rest heq
      rw [if_neg (fun hcon => hne (List.isEmpty_iff.mp hcon))]
      have hp0 : p0.1.isPair = false := hX p0 (heq ▸ List.mem_cons_self _ _)
      rw [hp0]
      simp only [Bool.false_eq_true, if_false]
      have hm : mapE (selectByName X) cols = Except.ok
          (cols.map (fun a => (Lbl.single a, valueAt X a))) := by
        apply mapE_ok_of_forall
        intro a ha
        obtain ⟨q, hq, hqe⟩ := hfound a ha
        unfold selectByName
        cases hfq : X.cols.find? (fun p => p.1 == Lbl.single a) with
        | none =>
          have hsome : (X.cols.find?
              (fun p => p.1 == Lbl.single a)).isSome := by
            rw [List.find?_isSome]
            exact ⟨q, hq, by rw [hqe]; exact beq_self_eq_true _⟩
          rw [hfq] at hsome
          cases hsome
        | some q2 =>
          have hl : q2.1 = Lbl.single a := by
            have hpred := List.find?_some hfq
            simp only at hpred
            exact eq_of_beq hpred
          have hv : q2.2 = valueAt X a := by
            unfold valueAt
            rw [hfq]
            rfl
          rw [← hl, ← hv]
      rw [hm]
      rfl
  · intro X c d p0 rest heq hpair hcd hds hcont
    have hmne : (xsMatches X c false).isEmpty = false := by
      obtain ⟨p, hpmem, hpe⟩ := List.mem_map.mp (mem_of_contains hcont)
      refine isEmpty_false_of_mem (List.mem_filter.mpr ⟨hpmem, ?_⟩)
      show (p.1.originOf == c) = true
      rw [hpe]
      exact beq_self_eq_true _
    have hone : multiSliceOne X d c = Except.ok ⟨if d then
        (xsMatches X c false).map (fun p => (Lbl.single p.1.newOf, p.2))
      else xsMatches X c false, X.nrow⟩ := by
      unfold multiSliceOne
      rw [hcd]
      simp only [Bool.false_eq_true, if_false]
      rw [hds]
      simp only [Bool.false_eq_true, if_false]
      exact xsSlice_ok X c false d hmne
    have hkeep : keepCols X [c] = [c] := by
      unfold keepCols
      rw [List.filter_cons, hcont]
      simp
    exact sliceCols_multi_one X c d p0 rest heq hpair hkeep _ hone
  · intro X c n d p0 rest heq hpair hds hstrip hcont
    have hcd : c.data.isEmpty = false := by
      cases hdata : c.data with
      | nil =>
        unfold startsDollar at hds
        rw [hdata] at hds
        cases hds
      | cons ch tl => rfl
    have hmne : (xsMatches X n true).isEmpty = false := by
      obtain ⟨p, hpmem, hpe⟩ := List.mem_map.mp (mem_of_contains hcont)
      refine isEmpty_false_of_mem (List.mem_filter.mpr ⟨hpmem, ?_⟩)
      show (p.1.newOf == n) = true
      rw [hpe]
      exact beq_self_eq_true _
    have hone : multiSliceOne X d c = Except.ok ⟨if d then
        (xsMatches X n true).map (fun p => (Lbl.single p.1.newOf, p.2))
      else xsMatches X n true, X.nrow⟩ := by
      unfold multiSliceOne
      rw [hcd]
      simp only [Bool.false_eq_true, if_false]
      rw [hds]
      simp only [eq_self_iff_true, if_true]
      rw [hstrip]
      exact xsSlice_ok X n true d hmne
    have hkeep : keepCols X [c] = [c] := by
      unfold keepCols
      rw [List.filter_cons, hstrip, hcont]
      simp
    exact sliceCols_multi_one X c d p0 rest heq hpair hkeep _ hone

theorem slice_cols_spec_witness :
    sliceCols c8Xs [] true = Except.ok ⟨[], 2⟩ ∧
    sliceCols c8Xs ["b", "a"] true = Except.ok
      ⟨[(Lbl.single "b", [3, 4]), (Lbl.single "a", [1, 2])], 2⟩ ∧
    sliceCols c8Xm ["o"] true = Except.ok ⟨[(Lbl.single "d1", [1])], 1⟩ ∧
    sliceCols c8Xm ["$o"] true = Except.ok ⟨[(Lbl.single "o", [2])], 1⟩ :=
  ⟨slice_cols_spec.1 c8Xs true,
   slice_cols_spec.2.1 c8Xs ["b", "a"] true (by decide) (by decide)
     (by decide),
   slice_cols_spec.2.2.1 c8Xm "o" true (Lbl.pair "o" "d1", [1])
     [(Lbl.pair "p" "o", [2])] rfl rfl rfl rfl rfl,
   slice_cols_spec.2.2.2 c8Xm "$o" "o" true (Lbl.pair "o" "d1", [1])
     [(Lbl.pair "p" "o", [2])] rfl rfl rfl rfl rfl⟩

/-! ## Theorems for claim C9 -/

theorem csMergeFrom_none (canonical modified : CS)
    (h : ∀ kv ∈ modified, kv.2 = none) :
    csMergeFrom canonical modified = canonical := by
  induction modified generalizing canonical with
  | nil => rfl
  | cons kv t ih =>
    have h1 : csMergeStep canonical kv = canonical := by
      unfold csMergeStep
      rw [h kv (List.mem_cons_self _ _)]
    show (kv :: t).foldl csMergeStep canonical = canonical
    rw [List.foldl_cons, h1]
    exact ih canonical (fun kv2 hm => h kv2 (List.mem_cons_of_mem _ hm))

/-- C9 counterexample: with the parallel substrate (`n_jobs = -1`), a
store present, and two completed units, `fit_transform`'s store actions
are the two merges followed by one broadcast at the end; no broadcast
happens between the first and the second unit's merge, whereas the claim
requires the canonical store to be re-broadcast after each unit's merge
and before the other units' writes are merged. -/
theorem store_merge_counterexample :
    storeTrace (-1) (some c9canon) c9units =
      [StoreEvent.merge 0, StoreEvent.merge 1, StoreEvent.broadcast] ∧
    broadcastBeforeSecondMerge
      (storeTrace (-1) (some c9canon) c9units) false = false :=
  ⟨rfl, rfl⟩

/-- C9 as amended: when the update condition holds (`n_jobs > 1` or `-1`,
and a store was found), `fit_transform` performs all the units' merges in
unit order after the whole parallel region completes, and only then
broadcasts the canonical store once to every unit's steps; only present
(non-`None`) values are merged, so units that wrote nothing leave the
canonical store unchanged; under the sequential substrate (or with no
store) the merge step is skipped entirely and everything is left as
is. -/
theorem store_merge_after_all_units (njobs : Int) (cs : CS)
    (units : List FittedUnit)
    (hupd : updateCondition njobs (some cs) = true) :
    storeTrace njobs (some cs) units =
      ((List.range units.length).map StoreEvent.merge) ++
        [StoreEvent.broadcast] ∧
    storeResult njobs (some cs) units =
      (some (mergeAll cs units),
        units.map (fun u => ⟨u.steps.map (fun _ => mergeAll cs units)⟩)) ∧
    (∀ (njobs2 : Int) (canonical2 : Option CS),
      updateCondition njobs2 canonical2 = false →
      storeTrace njobs2 canonical2 units = [] ∧
      storeResult njobs2 canonical2 units = (canonical2, units)) ∧
    (∀ units2 : List FittedUnit,
      (∀ u ∈ units2, ∀ kv ∈ u.steps.headD [], kv.2 = (none : Option Int)) →
      mergeAll cs units2 = cs) := by
  refine ⟨?_, ?_, ?_, ?_⟩
  · unfold storeTrace
    rw [if_pos hupd]
  · show storeResultSome njobs cs units = _
    unfold storeResultSome
    rw [if_pos hupd]
  · intro njobs2 canonical2 hoff
    constructor
    · unfold storeTrace
      rw [hoff]
      rfl
    · cases canonical2 with
      | none => rfl
      | some cs2 =>
        show storeResultSome njobs2 cs2 units = _
        unfold storeResultSome
        rw [hoff]
        rfl
  · intro units2 hnone
    induction units2 with
    | nil => rfl
    | cons u t ih =>
      have h1 : mergeAllStep cs u = cs := by
        unfold mergeAllStep
        exact csMergeFrom_none cs (u.steps.headD [])
          (hnone u (List.mem_cons_self _ _))
      show (u :: t).foldl mergeAllStep cs = cs
      rw [List.foldl_cons, h1]
      exact ih (fun u2 hm => hnone u2 (List.mem_cons_of_mem _ hm))

theorem store_merge_after_all_units_witness :
    storeTrace (-1) (some c9canon) c9units =
      ((List.range c9units.length).map StoreEvent.merge) ++
        [StoreEvent.broadcast] ∧
    storeResult (-1) (some c9canon) c9units =
      (some (mergeAll c9canon c9units),
        c9units.map (fun u =>
          ⟨u.steps.map (fun _ => mergeAll c9canon c9units)⟩)) ∧
    (∀ (njobs2 : Int) (canonical2 : Option CS),
      updateCondition njobs2 canonical2 = false →
      storeTrace njobs2 canonical2 c9units = [] ∧
      storeResult njobs2 canonical2 c9units = (canonical2, c9units)) ∧
    (∀ units2 : List FittedUnit,
      (∀ u ∈ units2, ∀ kv ∈ u.steps.headD [], kv.2 = (none : Option Int)) →
      mergeAll c9canon units2 = c9canon) :=
  store_merge_after_all_units (-1) c9canon c9units rfl

/-! ## Theorem for claim C5 -/

/-- C5 is contradicted by the code: a wrapper constructed with an explicit
override operator *instance* (the `transformer=` argument) keeps
`should_resolve = True`, because the property setter calls
`unset_resolve()` only for string and serialized-dict values; the very
first fit therefore invokes the user-supplied selection function once
(`pickCount = 1`) and rebinds the transformer to its result, discarding
the override.  For contrast, the last conjunct shows a string-valued
override really is permanent: no pick happens and the binding
survives. -/
theorem override_replaced_on_first_fit :
    (smartInit (TVal.inst "ovr")).transformer = some "ovr" ∧
    (smartInit (TVal.inst "ovr")).should_resolve = true ∧
    smartFitST (smartInit (TVal.inst "ovr"))
        (PyObj.df ⟨[(Lbl.single "x", [1])], 1⟩) PyObj.none "picked" =
      Except.ok (⟨some "picked", false, false, 1⟩,
        some ⟨[(Lbl.single "x", [1])], 1⟩, none) ∧
    smartFitST (smartInit (TVal.strRef "ovr"))
        (PyObj.df ⟨[(Lbl.single "x", [1])], 1⟩) PyObj.none "picked" =
      Except.ok (⟨some "ovr", false, false, 0⟩,
        some ⟨[(Lbl.single "x", [1])], 1⟩, none) :=
  ⟨rfl, rfl, rfl, rfl⟩

/-! ## Theorem for claim C10 -/

theorem zip_map_left {α β γ : Type} (g : α → γ) :
    ∀ (l1 : List α) (l2 : List β), l1.length = l2.length →
      (l1.zip l2).map (fun q => g q.1) = l1.map g := by
  intro l1
  induction l1 with
  | nil => intro l2 h; rfl
  | cons a t ih =>
    intro l2 h
    cases l2 with
    | nil => cases h
    | cons b t2 =>
      simp only [List.zip_cons_cons, List.map_cons]
      rw [ih t2 (by simpa using h)]

theorem maybeDedupNames_length (names : List String) :
    (maybeDedupNames names).length = names.length := by
  suffices h : ∀ (acc : List String × List (String × Nat)),
      ((names.foldl (fun acc col =>
        let r := dedupOne (acc.2.length + 1) acc.2 col
        (acc.1 ++ [r.1], r.2)) acc).1).length = acc.1.length + names.length by
    simpa using h ([], [])
  induction names with
  | nil => intro acc; simp
  | cons c t ih =>
    intro acc
    rw [List.foldl_cons, ih]
    simp [List.length_append]
    omega

/-- C10: every fit, transform and inverse_transform call of the resolvable
operator wrapper first normalizes its table argument through `check_df`: a
series, array, list or tuple is converted to a frame; a frame with
all-unique column names passes through untouched; a frame with duplicate
names is repaired by the pandas renaming (with the warning flag, values
untouched) rather than rejected; any other input raises the invalid-input
error at all three interfaces; and a `None` label argument to fit passes
through as absent. -/
theorem smart_checkdf_normalization :
    (∀ (st : SmartST) (pick nm : String) (vals : List Int),
      smartTransformST st (PyObj.series nm vals) pick =
        Except.ok (resolveST st pick,
          some ⟨[(Lbl.single nm, vals)], vals.length⟩)) ∧
    (∀ (st : SmartST) (pick : String) (vals : List Int),
      smartTransformST st (PyObj.pylist vals) pick =
        Except.ok (resolveST st pick,
          some ⟨[(Lbl.single "0", vals)], vals.length⟩) ∧
      smartTransformST st (PyObj.pytuple vals) pick =
        Except.ok (resolveST st pick,
          some ⟨[(Lbl.single "0", vals)], vals.length⟩)) ∧
    (∀ (st : SmartST) (pick : String) (rows : List (List Int)),
      smartInverseST st (PyObj.ndarray rows) pick =
        Except.ok (resolveST st pick, some (dfOfRows rows))) ∧
    (∀ (st : SmartST) (pick : String) (d : DF),
      (d.cols.map (fun p => p.1.newOf)).Nodup →
      smartFitST st (PyObj.df d) PyObj.none pick =
        Except.ok (resolveST st pick, some d, none)) ∧
    (∀ (st : SmartST) (pick : String) (d : DF),
      ¬ (d.cols.map (fun p => p.1.newOf)).Nodup →
      checkDf (PyObj.df d) false false =
        Except.ok (some (dedupDf d), true) ∧
      (dedupDf d).cols.map Prod.snd = d.cols.map Prod.snd ∧
      smartFitST st (PyObj.df d) PyObj.none pick =
        Except.ok (resolveST st pick, some (dedupDf d), none)) ∧
    (∀ (st : SmartST) (pick s : String) (y : PyObj),
      smartFitST st (PyObj.other s) y pick =
        Except.error CheckErr.invalidType ∧
      smartTransformST st (PyObj.other s) pick =
        Except.error CheckErr.invalidType ∧
      smartInverseST st (PyObj.other s) pick =
        Except.error CheckErr.invalidType) := by
  refine ⟨?_, ?_, ?_, ?_, ?_, ?_⟩
  · intro st pick nm vals
    rfl
  · intro st pick vals
    exact ⟨rfl, rfl⟩
  · intro st pick rows
    rfl
  · intro st pick d h
    have hcd : checkDf (PyObj.df d) false false =
        Except.ok (some d, false) := by
      show withSingleColumnCheck false (checkDfFrame d) = _
      unfold checkDfFrame
      rw [if_pos h]
      rfl
    unfold smartFitST
    rw [hcd]
    rfl
  · intro st pick d h
    have hcd : checkDf (PyObj.df d) false false =
        Except.ok (some (dedupDf d), true) := by
      show withSingleColumnCheck false (checkDfFrame d) = _
      unfold checkDfFrame
      rw [if_neg h]
      rfl
    refine ⟨hcd, ?_, ?_⟩
    · have hlen : d.cols.length =
          (maybeDedupNames (d.cols.map (fun p => p.1.newOf))).length := by
        rw [maybeDedupNames_length, List.length_map]
      unfold dedupDf
      show ((d.cols.zip (maybeDedupNames
          (d.cols.map (fun p => p.1.newOf)))).map
            (fun q => (Lbl.single q.2, q.1.2))).map Prod.snd =
        d.cols.map Prod.snd
      rw [List.map_map]
      exact zip_map_left Prod.snd d.cols
        (maybeDedupNames (d.cols.map (fun p => p.1.newOf))) hlen
    · unfold smartFitST
      rw [hcd]
      rfl
  · intro st pick s y
    exact ⟨rfl, rfl, rfl⟩

theorem smart_checkdf_normalization_witness :
    smartTransformST ⟨none, true, false, 0⟩ (PyObj.series "s" [1, 2]) "pk" =
      Except.ok (resolveST ⟨none, true, false, 0⟩ "pk",
        some ⟨[(Lbl.single "s", [1, 2])], 2⟩) ∧
    (checkDf (PyObj.df ⟨[(Lbl.single "a", [1]), (Lbl.single "a", [2])], 1⟩)
        false false =
      Except.ok (some (dedupDf
        ⟨[(Lbl.single "a", [1]), (Lbl.single "a", [2])], 1⟩), true) ∧
      (dedupDf ⟨[(Lbl.single "a", [1]), (Lbl.single "a", [2])], 1⟩).cols.map
          Prod.snd =
        ([(Lbl.single "a", [1]), (Lbl.single "a", [2])] :
          List (Lbl × List Int)).map Prod.snd ∧
      smartFitST ⟨none, true, false, 0⟩
          (PyObj.df ⟨[(Lbl.single "a", [1]), (Lbl.single "a", [2])], 1⟩)
          PyObj.none "pk" =
        Except.ok (resolveST ⟨none, true, false, 0⟩ "pk",
          some (dedupDf ⟨[(Lbl.single "a", [1]),
            (Lbl.single "a", [2])], 1⟩), none)) ∧
    dedupDf ⟨[(Lbl.single "a", [1]), (Lbl.single "a", [2])], 1⟩ =
      ⟨[(Lbl.single "a", [1]), (Lbl.single "a.1", [2])], 1⟩ :=
  ⟨smart_checkdf_normalization.1 ⟨none, true, false, 0⟩ "pk" "s" [1, 2],
   smart_checkdf_normalization.2.2.2.2.1 ⟨none, true, false, 0⟩ "pk"
     ⟨[(Lbl.single "a", [1]), (Lbl.single "a", [2])], 1⟩ (by decide),
   rfl⟩

end Foreshadow
